import Mathlib

/-!
Shallow embedding of the advanced allocator in `src/mymalloc_adv.c` and proofs
of the specification's testable properties.

Modelling choices, all derived from the source:

* The arena is a fixed byte region of `HEAP_SIZE` bytes.  Every block occupies
  `sizeof(Block) + size + sizeof(size_t)` consecutive bytes.  On the LP64
  platform the source targets, `sizeof(Block) = 48` (one `size_t`, one `int`
  padded to 8, four 8-byte pointers) and `sizeof(size_t) = 8`.
* The physical chain (`prev_phys` / `next_phys`) is represented by the order
  of the `blocks` list of the state; a block's address is the sum of the
  footprints of the blocks before it (`offsetAt`).  Dereferencing a `Block*`
  in the source corresponds to looking an offset up in the chain (`idxAt`).
* The per-bin doubly-linked free lists (`prev_free` / `next_free`) are
  represented by the order of the offset list of each bin: `insert_free`
  prepends, `remove_free` unlinks the unique occurrence.
* Footers are written but never read by the source (`read_footer` has no
  caller), so they are not represented.
* `size_t` arithmetic that can wrap (the sum in `align8`, the product in
  `my_calloc`, the subtraction in `split_block`) is taken modulo `2 ^ 64`.
* `stale` is ghost state recording the offsets of block headers that were
  absorbed by coalescing: their bytes still read as a header whose `free`
  flag is set, which is exactly what the source's double-free check sees.
  Stale offsets whose bytes may have been overwritten (inside a region handed
  to the user by `my_malloc`, or under the boundary tags written by
  `split_block`) are dropped; reads of such memory are out of the model and
  are reported by the `unmodeled` events below.
* Pointers are payload offsets from the arena base; the C `NULL` is `none`.
  Frees and reallocs whose header read falls on memory the model does not
  track (never-written bytes, user data) yield an `unmodeled` event and leave
  the model state unchanged.
-/

set_option autoImplicit false

namespace Mymalloc

/-- Total size of the heap in bytes (1 MB); `HEAP_SIZE` in the source. -/
def HEAP_SIZE : ℕ := 1024 * 1024

/-- Alignment for allocated memory in bytes; `ALIGN` in the source. -/
def ALIGN : ℕ := 8

/-- Number of bins of the segregated free list; `NUM_BINS` in the source. -/
def NUM_BINS : ℕ := 6

/-- `sizeof(Block)` on the LP64 platform the source targets: one `size_t`
(8 bytes), one `int` padded to 8 bytes, and four 8-byte pointers. -/
def sizeofBlock : ℕ := 48

/-- `sizeof(size_t)`: the size of the footer written after each payload. -/
def sizeofFooter : ℕ := 8

/-- Modulus of 64-bit `size_t` arithmetic. -/
def U64 : ℕ := 2 ^ 64

/-- `align8` from the source: `(n + 7) & ~7` on a 64-bit `size_t`.
Masking with `~7` clears the three low bits, i.e. `x & ~7 = x / 8 * 8`;
the addition wraps modulo `2 ^ 64`. -/
def align8 (n : ℕ) : ℕ := (n + 7) % U64 / 8 * 8

/-- 64-bit `size_t` subtraction `a - b` (wraps modulo `2 ^ 64`); both
arguments of every use are below `2 ^ 64`. -/
def sub64 (a b : ℕ) : ℕ := (a + U64 - b) % U64

/-- A block header: payload size in bytes and the free flag.  The two
physical-chain links and the two free-list links of the C struct are
represented positionally (see the file comment). -/
structure Block where
  size : ℕ
  free : Bool
deriving DecidableEq

/-- Number of arena bytes a block occupies: header, payload, footer. -/
def blockFootprint (b : Block) : ℕ := sizeofBlock + b.size + sizeofFooter

/-- Total number of arena bytes covered by a chain of blocks. -/
def chainLen (l : List Block) : ℕ := (l.map blockFootprint).sum

/-- Arena offset of the `i`-th block of a chain (the first block sits at
offset 0, as `heap_start = (Block*)heap` in the source). -/
def offsetAt (bs : List Block) (i : ℕ) : ℕ := chainLen (bs.take i)

/-- The `i`-th block of a chain (meaningful when `i` is in range). -/
def blockAt (bs : List Block) (i : ℕ) : Block := bs[i]?.getD ⟨0, false⟩

/-- Index of the block whose header sits at arena offset `off`, if any.
This is the model of dereferencing `(Block*)(heap + off)`. -/
def idxAtAux : ℕ → List Block → ℕ → Option ℕ
  | _, [], _ => none
  | cur, b :: bs, off =>
    if cur = off then some 0
    else (idxAtAux (cur + blockFootprint b) bs off).map (· + 1)

/-- Index of the block whose header sits at arena offset `off`, if any. -/
def idxAt (bs : List Block) (off : ℕ) : Option ℕ := idxAtAux 0 bs off

/-- Allocator state: the initialization flag, the physical chain of blocks,
the six bins of the segregated free list (each a list of block offsets in
free-list order), and the ghost list of stale header offsets. -/
structure Heap where
  heap_initialized : Bool
  blocks : List Block
  bins : List (List ℕ)
  stale : List ℕ
deriving DecidableEq

/-- The state before the first call: flag clear, no chain, empty bins. -/
def emptyHeap : Heap :=
  { heap_initialized := false
    blocks := []
    bins := List.replicate NUM_BINS []
    stale := [] }

/-- The free list of bin `i`. -/
def binGet (h : Heap) (i : ℕ) : List ℕ := h.bins.getD i []

/-- `size_to_bin` from the source. -/
def size_to_bin (size : ℕ) : ℕ :=
  if size ≤ 64 then 0
  else if size ≤ 128 then 1
  else if size ≤ 256 then 2
  else if size ≤ 512 then 3
  else if size ≤ 1024 then 4
  else 5

/-- `insert_free` from the source: prepend the block (given by its offset
and size) to the bin selected by its size. -/
def insert_free (h : Heap) (off sz : ℕ) : Heap :=
  let idx := size_to_bin sz
  { h with bins := h.bins.set idx (off :: binGet h idx) }

/-- `remove_free` from the source: unlink the block from the bin selected by
its size.  Unlinking a doubly-linked node is removing its (unique, by the
free-list invariant) occurrence from the bin's list. -/
def remove_free (h : Heap) (off sz : ℕ) : Heap :=
  let idx := size_to_bin sz
  { h with bins := h.bins.set idx ((binGet h idx).erase off) }

/-- Payload capacity of the single initial block:
`HEAP_SIZE - sizeof(Block) - sizeof(size_t)`. -/
def initSize : ℕ := HEAP_SIZE - sizeofBlock - sizeofFooter

/-- `heap_init` from the source: one free block spanning the arena, bins
cleared, then the block inserted into its free list. -/
def heap_init : Heap :=
  insert_free
    { heap_initialized := true
      blocks := [⟨initSize, true⟩]
      bins := List.replicate NUM_BINS []
      stale := [] } 0 initSize

/-- The `b->size` read performed by `find_fit`: size of the block whose
header is at offset `off` (offsets handed to `find_fit` always come from a
bin, and bin entries are headers of chain blocks by the free-list
invariant, so the default branch is dead under `Inv`). -/
def sizeAt (bs : List Block) (off : ℕ) : ℕ :=
  match idxAt bs off with
  | some i => (blockAt bs i).size
  | none => 0

/-- The scan of `find_fit` over the bins with the given indices: within a
bin, the first entry whose size is at least `sz` wins (free-list order). -/
def findFitFrom (h : Heap) (sz : ℕ) : List ℕ → Option ℕ
  | [] => none
  | i :: rest =>
    match (binGet h i).find? (fun off => decide (sz ≤ sizeAt h.blocks off)) with
    | some off => some off
    | none => findFitFrom h sz rest

/-- `find_fit` from the source: scan the bins from `size_to_bin sz`
upwards. -/
def find_fit (h : Heap) (sz : ℕ) : Option ℕ :=
  findFitFrom h sz ((List.range NUM_BINS).drop (size_to_bin sz))

/-- `split_block` from the source, acting on the block at chain index `i`.
If the remainder is at least the minimal viable fragment, the block is cut
to `sz` bytes and a new free block is created right after it and inserted
into its free list.  The boundary tags written for the new block overwrite
any stale header bytes near `newOff`, so such ghost entries are dropped. -/
def split_block (h : Heap) (i sz : ℕ) : Heap :=
  match h.blocks[i]? with
  | none => h
  | some b =>
    let remaining := sub64 b.size sz
    if remaining < sizeofBlock + sizeofFooter + ALIGN then h
    else
      let newOff := offsetAt h.blocks i + sizeofBlock + sz + sizeofFooter
      let newb : Block := ⟨remaining - sizeofBlock - sizeofFooter, true⟩
      let h1 : Heap :=
        { h with
          blocks := h.blocks.take i ++ Block.mk sz b.free :: newb :: h.blocks.drop (i + 1)
          stale := h.stale.filter fun a =>
            decide (a + sizeofBlock + sizeofFooter ≤ newOff) || decide (newOff + sizeofBlock + sizeofFooter ≤ a) }
      insert_free h1 newOff newb.size

/-- `my_malloc` from the source.  Returns the payload offset (`NULL` is
`none`) and the new state.  The `idxAt … = none` fallback is dead code under
the verified invariants (see `sizeAt`).  Handing the block to the caller
makes its bytes user-writable, so stale ghost offsets inside it are
dropped. -/
def my_malloc (h0 : Heap) (reqSize : ℕ) : Option ℕ × Heap :=
  let h := if h0.heap_initialized then h0 else heap_init
  let sz := align8 reqSize
  match find_fit h sz with
  | none => (none, h)
  | some off =>
    match idxAt h.blocks off with
    | none => (none, h)
    | some i =>
      let b := blockAt h.blocks i
      let h1 := remove_free h off b.size
      let h2 := split_block h1 i sz
      let b2 := blockAt h2.blocks i
      let h3 : Heap :=
        { h2 with blocks := h2.blocks.take i ++ Block.mk b2.size false :: h2.blocks.drop (i + 1) }
      let h4 : Heap :=
        { h3 with stale := h3.stale.filter fun a =>
            decide (a < off) || decide (off + blockFootprint b2 ≤ a) }
      (some (off + sizeofBlock), h4)

/-- `coalesce` from the source, acting on the (free) block at chain index
`i`: forward merge with a free successor, then backward merge with a free
predecessor, then insert the surviving block into the free list selected by
its final size.  The header of an absorbed block keeps its bytes (its `free`
flag stays set), which the ghost `stale` list records. -/
def coalesce (h : Heap) (i : ℕ) : Heap :=
  let step1 : Heap × ℕ :=
    match h.blocks[i]?, h.blocks[i + 1]? with
    | some b, some nb =>
      if nb.free then
        let h' := remove_free h (offsetAt h.blocks (i + 1)) nb.size
        let merged : Block := ⟨b.size + sizeofBlock + sizeofFooter + nb.size, b.free⟩
        ({ h' with
            blocks := h'.blocks.take i ++ merged :: h'.blocks.drop (i + 2)
            stale := offsetAt h.blocks (i + 1) :: h'.stale }, i)
      else (h, i)
    | _, _ => (h, i)
  let h1 := step1.1
  let i1 := step1.2
  let step2 : Heap × ℕ :=
    if i1 = 0 then (h1, i1)
    else
      match h1.blocks[i1 - 1]?, h1.blocks[i1]? with
      | some pb, some b =>
        if pb.free then
          let h' := remove_free h1 (offsetAt h1.blocks (i1 - 1)) pb.size
          let merged : Block := ⟨pb.size + sizeofBlock + sizeofFooter + b.size, pb.free⟩
          ({ h' with
              blocks := h'.blocks.take (i1 - 1) ++ merged :: h'.blocks.drop (i1 + 1)
              stale := offsetAt h1.blocks i1 :: h'.stale }, i1 - 1)
        else (h1, i1)
      | _, _ => (h1, i1)
  let h2 := step2.1
  let i2 := step2.2
  let fb := blockAt h2.blocks i2
  insert_free h2 (offsetAt h2.blocks i2) fb.size

/-- Observable outcome of `my_free`: the source's diagnostics plus
`unmodeled` for the header reads the model does not track (pointer inside
the arena but whose header bytes are user data or never-written memory;
undefined or data-dependent behavior in the source). -/
inductive FreeEvent where
  | ok
  | nullPtr
  | outOfRange
  | doubleFree
  | unmodeled
deriving DecidableEq

/-- `my_free` from the source: `NULL` check, arena range check, then the
double-free check on the header's `free` flag; otherwise mark free and
coalesce.  A header offset that matches no chain block but is recorded as a
stale absorbed header still reads `free = 1`, hence the double-free
branch. -/
def my_free (h : Heap) (ptr : Option ℕ) : FreeEvent × Heap :=
  match ptr with
  | none => (.nullPtr, h)
  | some p =>
    if HEAP_SIZE ≤ p then (.outOfRange, h)
    else if p < sizeofBlock then (.unmodeled, h)
    else
      match idxAt h.blocks (p - sizeofBlock) with
      | some i =>
        let b := blockAt h.blocks i
        if b.free then (.doubleFree, h)
        else
          let h1 : Heap :=
            { h with blocks := h.blocks.take i ++ Block.mk b.size true :: h.blocks.drop (i + 1) }
          (.ok, coalesce h1 i)
      | none =>
        if (p - sizeofBlock) ∈ h.stale then (.doubleFree, h) else (.unmodeled, h)

/-- `my_calloc` from the source: the product `n * s` is computed in
`size_t`, i.e. modulo `2 ^ 64`, with no overflow check, and passed to
`my_malloc`.  The `memset` only writes payload bytes, which the model does
not track. -/
def my_calloc (h : Heap) (n s : ℕ) : Option ℕ × Heap :=
  let total := n * s % U64
  my_malloc h total

/-- Observable outcome of `my_realloc`.  `outOfRange` is vocabulary for the
specification's claimed behavior on out-of-arena pointers: the source
function never produces it, because it reads `b->size` without any bounds
check; such reads are reported as `unmodeledRead`. -/
inductive ReallocResult where
  | ptr (p : ℕ)
  | oom
  | outOfRange
  | unmodeledRead
deriving DecidableEq

/-- `my_realloc` from the source: `NULL` delegates to `my_malloc`; otherwise
the header at `ptr - sizeof(Block)` is read with no bounds check and no
free-flag check.  If the current size suffices the pointer is returned
unchanged; otherwise allocate, copy (pure payload bytes, untracked), free
the old block. -/
def my_realloc (h : Heap) (ptr : Option ℕ) (sz : ℕ) : ReallocResult × Heap :=
  match ptr with
  | none =>
    match my_malloc h sz with
    | (some p, h') => (.ptr p, h')
    | (none, h') => (.oom, h')
  | some p =>
    if p < sizeofBlock then (.unmodeledRead, h)
    else
      match idxAt h.blocks (p - sizeofBlock) with
      | none => (.unmodeledRead, h)
      | some i =>
        let b := blockAt h.blocks i
        if sz ≤ b.size then (.ptr p, h)
        else
          match my_malloc h sz with
          | (none, h') => (.oom, h')
          | (some np, h') => (.ptr np, (my_free h' (some p)).2)

/-- One call to an entry point of the allocator.  Every branch whose real
behavior depends on memory the model does not track leaves the model state
unchanged (and is tagged by an `unmodeled` event), so including all calls
keeps the reachable set exact for well-defined executions. -/
inductive Step : Heap → Heap → Prop where
  | malloc (h : Heap) (sz : ℕ) : Step h (my_malloc h sz).2
  | calloc (h : Heap) (n s : ℕ) : Step h (my_calloc h n s).2
  | free (h : Heap) (p : Option ℕ) : Step h (my_free h p).2
  | realloc (h : Heap) (p : Option ℕ) (sz : ℕ) : Step h (my_realloc h p sz).2

/-- States reachable from process start (uninitialized heap) by any
sequence of allocator calls. -/
def Reachable (h : Heap) : Prop := Relation.ReflTransGen Step emptyHeap h

/-- No two physically adjacent blocks of the chain are both free. -/
def NoAdjFree (bs : List Block) : Prop :=
  List.Chain' (fun a b => a.free = false ∨ b.free = false) bs

/-- The allocator invariants:
`init_empty`: before initialization the state is the start state;
`noadj`: coalescing closure — no two adjacent free blocks;
`sizes`: every payload size is 8-byte aligned;
`total`: once initialized, the chain covers the arena exactly;
`binlen`: there are `NUM_BINS` bins;
`bins_sound`: every bin entry is the offset of a free chain block whose
size class is that bin;
`bins_complete`: every free chain block is listed in its bin;
`bins_nodup`: no bin lists an offset twice. -/
structure Inv (h : Heap) : Prop where
  init_empty : h.heap_initialized = false → h = emptyHeap
  noadj : NoAdjFree h.blocks
  sizes : ∀ b ∈ h.blocks, 8 ∣ b.size
  total : h.heap_initialized = true → chainLen h.blocks = HEAP_SIZE
  binlen : h.bins.length = NUM_BINS
  bins_sound : ∀ i : ℕ, ∀ off ∈ binGet h i, ∃ j b, h.blocks[j]? = some b ∧
      offsetAt h.blocks j = off ∧ b.free = true ∧ size_to_bin b.size = i
  bins_complete : ∀ (j : ℕ) (b : Block), h.blocks[j]? = some b → b.free = true →
      offsetAt h.blocks j ∈ binGet h (size_to_bin b.size)
  bins_nodup : ∀ i : ℕ, (binGet h i).Nodup

/-! ### Footprints, offsets and header lookup -/

theorem blockFootprint_eq (b : Block) : blockFootprint b = 56 + b.size := by
  simp [blockFootprint, sizeofBlock, sizeofFooter]; omega

theorem blockFootprint_ge (b : Block) : 56 ≤ blockFootprint b := by
  rw [blockFootprint_eq]; omega

theorem chainLen_nil : chainLen [] = 0 := rfl

theorem chainLen_cons (b : Block) (l : List Block) :
    chainLen (b :: l) = blockFootprint b + chainLen l := by
  simp [chainLen]

theorem chainLen_append (l₁ l₂ : List Block) :
    chainLen (l₁ ++ l₂) = chainLen l₁ + chainLen l₂ := by
  simp [chainLen]

theorem chainLen_singleton (b : Block) : chainLen [b] = blockFootprint b := by
  simp [chainLen]

theorem offsetAt_zero (bs : List Block) : offsetAt bs 0 = 0 := rfl

theorem offsetAt_nil (i : ℕ) : offsetAt [] i = 0 := by
  simp [offsetAt, chainLen]

theorem offsetAt_cons_succ (b : Block) (bs : List Block) (i : ℕ) :
    offsetAt (b :: bs) (i + 1) = blockFootprint b + offsetAt bs i := by
  simp [offsetAt, List.take_succ_cons, chainLen_cons]

theorem offsetAt_front (l₁ l₂ : List Block) (i : ℕ) (h : i ≤ l₁.length) :
    offsetAt (l₁ ++ l₂) i = offsetAt l₁ i := by
  simp [offsetAt, List.take_append_of_le_length h]

theorem offsetAt_len (l₁ l₂ : List Block) : offsetAt (l₁ ++ l₂) l₁.length = chainLen l₁ := by
  rw [offsetAt_front l₁ l₂ _ le_rfl, offsetAt, List.take_length]

theorem offsetAt_back (l₁ l₂ : List Block) (k : ℕ) :
    offsetAt (l₁ ++ l₂) (l₁.length + k) = chainLen l₁ + offsetAt l₂ k := by
  simp [offsetAt, List.take_append, chainLen_append]

theorem offsetAt_succ (bs : List Block) (i : ℕ) (b : Block) (h : bs[i]? = some b) :
    offsetAt bs (i + 1) = offsetAt bs i + blockFootprint b := by
  simp [offsetAt, List.take_succ, h, chainLen_append, chainLen_singleton, chainLen_nil]

theorem offsetAt_le (bs : List Block) : ∀ i j : ℕ, i ≤ j → offsetAt bs i ≤ offsetAt bs j := by
  induction bs with
  | nil => intro i j _; simp [offsetAt_nil]
  | cons b bs ih =>
    intro i j hij
    cases i with
    | zero => simp [offsetAt_zero]
    | succ i' =>
      cases j with
      | zero => omega
      | succ j' =>
        rw [offsetAt_cons_succ, offsetAt_cons_succ]
        exact Nat.add_le_add_left (ih i' j' (by omega)) _

theorem offsetAt_lt (bs : List Block) (i j : ℕ) (hi : i < bs.length) (hij : i < j) :
    offsetAt bs i < offsetAt bs j := by
  have hb : ∃ b, bs[i]? = some b := by
    rcases List.getElem?_eq_some.mpr ⟨hi, rfl⟩ with h
    exact ⟨bs[i], h⟩
  rcases hb with ⟨b, hb⟩
  have h1 : offsetAt bs (i + 1) = offsetAt bs i + blockFootprint b := offsetAt_succ bs i b hb
  have h2 : offsetAt bs (i + 1) ≤ offsetAt bs j := offsetAt_le bs (i + 1) j (by omega)
  have := blockFootprint_ge b
  omega

theorem offsetAt_inj (bs : List Block) (i j : ℕ) (hi : i < bs.length) (hj : j < bs.length)
    (h : offsetAt bs i = offsetAt bs j) : i = j := by
  rcases Nat.lt_trichotomy i j with hlt | heq | hgt
  · exact absurd h (Nat.ne_of_lt (offsetAt_lt bs i j hi hlt))
  · exact heq
  · exact absurd h.symm (Nat.ne_of_lt (offsetAt_lt bs j i hj hgt))

theorem idxAtAux_some_iff (bs : List Block) : ∀ (cur off i : ℕ),
    idxAtAux cur bs off = some i ↔ (i < bs.length ∧ cur + offsetAt bs i = off) := by
  induction bs with
  | nil => intro cur off i; simp [idxAtAux]
  | cons b bs ih =>
    intro cur off i
    by_cases hc : cur = off
    · subst hc
      simp only [idxAtAux, if_pos rfl]
      constructor
      · rintro h
        cases h
        exact ⟨Nat.succ_pos _, by simp [offsetAt_zero]⟩
      · rintro ⟨hlen, heq⟩
        cases i with
        | zero => rfl
        | succ n =>
          exfalso
          rw [offsetAt_cons_succ] at heq
          have := blockFootprint_ge b
          omega
    · simp only [idxAtAux, if_neg hc, Option.map_eq_some']
      constructor
      · rintro ⟨n, hn, rfl⟩
        rcases (ih _ off n).mp hn with ⟨hlen, heq⟩
        refine ⟨by simpa using Nat.succ_lt_succ hlen, ?_⟩
        rw [offsetAt_cons_succ]
        omega
      · rintro ⟨hlen, heq⟩
        cases i with
        | zero =>
          exfalso
          rw [offsetAt_zero] at heq
          omega
        | succ n =>
          refine ⟨n, (ih _ off n).mpr ⟨by simpa using Nat.lt_of_succ_lt_succ hlen, ?_⟩, rfl⟩
          rw [offsetAt_cons_succ] at heq
          omega

theorem idxAt_some_iff (bs : List Block) (off i : ℕ) :
    idxAt bs off = some i ↔ (i < bs.length ∧ offsetAt bs i = off) := by
  simpa [idxAt] using idxAtAux_some_iff bs 0 off i

theorem idxAt_offsetAt (bs : List Block) (i : ℕ) (hi : i < bs.length) :
    idxAt bs (offsetAt bs i) = some i :=
  (idxAt_some_iff bs _ i).mpr ⟨hi, rfl⟩

theorem idxAt_none_iff (bs : List Block) (off : ℕ) :
    idxAt bs off = none ↔ ∀ i, i < bs.length → offsetAt bs i ≠ off := by
  constructor
  · intro h i hi hoff
    rw [← hoff, idxAt_offsetAt bs i hi] at h
    cases h
  · intro h
    cases hx : idxAt bs off with
    | none => rfl
    | some i =>
      rcases (idxAt_some_iff bs off i).mp hx with ⟨hi, hoff⟩
      exact absurd hoff (h i hi)

theorem blockAt_of_getElem? (bs : List Block) (i : ℕ) (b : Block) (h : bs[i]? = some b) :
    blockAt bs i = b := by
  simp [blockAt, h]

theorem decomp_of_getElem? (bs : List Block) (i : ℕ) (b : Block) (h : bs[i]? = some b) :
    ∃ l₁ l₂, bs = l₁ ++ b :: l₂ ∧ l₁.length = i := by
  rcases List.getElem?_eq_some.mp h with ⟨hi, hget⟩
  refine ⟨bs.take i, bs.drop (i + 1), ?_, by simpa using Nat.le_of_lt hi⟩
  conv_lhs => rw [← List.take_append_drop i bs]
  rw [List.drop_eq_getElem_cons hi, hget]

/-! ### Evaluation lemmas for list surgery around a decomposition -/

theorem take_at_len (l₁ l₂ : List Block) (b : Block) :
    (l₁ ++ b :: l₂).take l₁.length = l₁ := List.take_left l₁ _

theorem drop_at_len_succ (l₁ l₂ : List Block) (b : Block) :
    (l₁ ++ b :: l₂).drop (l₁.length + 1) = l₂ := by
  have h : (l₁ ++ b :: l₂).drop (l₁.length + 1) = (b :: l₂).drop 1 := List.drop_append 1
  exact h

theorem getElem?_at_len (l₁ l₂ : List Block) (b : Block) :
    (l₁ ++ b :: l₂)[l₁.length]? = some b := by
  rw [List.getElem?_append_right le_rfl, Nat.sub_self]
  exact List.getElem?_cons_zero

theorem getElem?_at_len_succ (l₁ l₂ : List Block) (b : Block) (k : ℕ) :
    (l₁ ++ b :: l₂)[l₁.length + 1 + k]? = l₂[k]? := by
  rw [List.getElem?_append_right (by omega)]
  have h : l₁.length + 1 + k - l₁.length = k + 1 := by omega
  rw [h]
  exact List.getElem?_cons_succ

/-! ### Bin manipulation, size classes, and `size_t` arithmetic -/

theorem size_to_bin_lt (sz : ℕ) : size_to_bin sz < NUM_BINS := by
  simp only [size_to_bin, NUM_BINS]
  split_ifs <;> omega

theorem binGet_eq (h : Heap) (i : ℕ) : binGet h i = (h.bins[i]?).getD [] :=
  List.getD_eq_getElem?_getD _ _ _

theorem binGet_big (h : Heap) (i : ℕ) (hi : h.bins.length ≤ i) : binGet h i = [] := by
  rw [binGet_eq, List.getElem?_eq_none hi]
  rfl

theorem binGet_set_self (h : Heap) (idx : ℕ) (l : List ℕ) (hidx : idx < h.bins.length) :
    binGet { h with bins := h.bins.set idx l } idx = l := by
  rw [binGet_eq]
  simp only
  rw [List.getElem?_set_eq_of_lt l hidx]
  rfl

theorem binGet_set_ne (h : Heap) (idx i : ℕ) (l : List ℕ) (hne : i ≠ idx) :
    binGet { h with bins := h.bins.set idx l } i = binGet h i := by
  rw [binGet_eq, binGet_eq]
  simp only
  rw [List.getElem?_set_ne (Ne.symm hne)]

theorem insert_free_blocks (h : Heap) (off sz : ℕ) : (insert_free h off sz).blocks = h.blocks := rfl

theorem insert_free_stale (h : Heap) (off sz : ℕ) : (insert_free h off sz).stale = h.stale := rfl

theorem insert_free_flag (h : Heap) (off sz : ℕ) :
    (insert_free h off sz).heap_initialized = h.heap_initialized := rfl

theorem insert_free_binlen (h : Heap) (off sz : ℕ) :
    (insert_free h off sz).bins.length = h.bins.length := by
  simp [insert_free]

theorem binGet_insert_free (h : Heap) (off sz i : ℕ) (hb : h.bins.length = NUM_BINS) :
    binGet (insert_free h off sz) i =
      if i = size_to_bin sz then off :: binGet h i else binGet h i := by
  rw [insert_free]
  split_ifs with hi
  · subst hi
    exact binGet_set_self h _ _ (by rw [hb]; exact size_to_bin_lt sz)
  · exact binGet_set_ne h _ _ _ hi

theorem remove_free_blocks (h : Heap) (off sz : ℕ) : (remove_free h off sz).blocks = h.blocks := rfl

theorem remove_free_stale (h : Heap) (off sz : ℕ) : (remove_free h off sz).stale = h.stale := rfl

theorem remove_free_flag (h : Heap) (off sz : ℕ) :
    (remove_free h off sz).heap_initialized = h.heap_initialized := rfl

theorem remove_free_binlen (h : Heap) (off sz : ℕ) :
    (remove_free h off sz).bins.length = h.bins.length := by
  simp [remove_free]

theorem binGet_remove_free (h : Heap) (off sz i : ℕ) (hb : h.bins.length = NUM_BINS) :
    binGet (remove_free h off sz) i =
      if i = size_to_bin sz then (binGet h i).erase off else binGet h i := by
  rw [remove_free]
  split_ifs with hi
  · subst hi
    exact binGet_set_self h _ _ (by rw [hb]; exact size_to_bin_lt sz)
  · exact binGet_set_ne h _ _ _ hi

theorem align8_dvd (n : ℕ) : 8 ∣ align8 n :=
  ⟨(n + 7) % U64 / 8, Nat.mul_comm _ _⟩

theorem align8_lt (n : ℕ) : align8 n < U64 := by
  have h1 : (n + 7) % U64 / 8 * 8 ≤ (n + 7) % U64 := Nat.div_mul_le_self _ _
  have h2 : (n + 7) % U64 < U64 := Nat.mod_lt _ (by simp [U64])
  exact Nat.lt_of_le_of_lt h1 h2

theorem align8_le_self (n : ℕ) (hn : n + 7 < U64) : n ≤ align8 n := by
  rw [align8, Nat.mod_eq_of_lt hn]
  omega

theorem align8_eq_of_lt (n : ℕ) (hn : n + 7 < U64) : align8 n = (n + 7) / 8 * 8 := by
  rw [align8, Nat.mod_eq_of_lt hn]

theorem sub64_eq (a b : ℕ) (hba : b ≤ a) (ha : a < U64) : sub64 a b = a - b := by
  have h : a + U64 - b = (a - b) + U64 := by omega
  rw [sub64, h, Nat.add_mod_right, Nat.mod_eq_of_lt (by omega)]

/-! ### Invariants of the initial states -/

theorem inv_emptyHeap : Inv emptyHeap := by
  refine ⟨fun _ => rfl, ?_, ?_, ?_, ?_, ?_, ?_, ?_⟩
  · exact List.chain'_nil
  · intro b hb
    simp [emptyHeap] at hb
  · intro hinit
    cases hinit
  · rfl
  · intro i off hoff
    exfalso
    rcases Nat.lt_or_ge i NUM_BINS with hi | hi
    · rw [binGet_eq] at hoff
      have : emptyHeap.bins[i]? = some [] := by
        simp [emptyHeap, List.getElem?_replicate, hi]
      rw [this] at hoff
      simp at hoff
    · rw [binGet_big emptyHeap i (by simpa [emptyHeap] using hi)] at hoff
      simp at hoff
  · intro j b hj
    exfalso
    simp [emptyHeap] at hj
  · intro i
    rcases Nat.lt_or_ge i NUM_BINS with hi | hi
    · rw [binGet_eq]
      have : emptyHeap.bins[i]? = some [] := by
        simp [emptyHeap, List.getElem?_replicate, hi]
      rw [this]
      exact List.nodup_nil
    · rw [binGet_big emptyHeap i (by simpa [emptyHeap] using hi)]
      exact List.nodup_nil

theorem heap_init_blocks : heap_init.blocks = [⟨initSize, true⟩] := rfl

theorem heap_init_flag : heap_init.heap_initialized = true := rfl

theorem heap_init_stale : heap_init.stale = [] := rfl

theorem heap_init_bins : heap_init.bins = [[], [], [], [], [], [0]] := by decide

theorem size_to_bin_initSize : size_to_bin initSize = 5 := by decide

theorem binGet_heap_init (i : ℕ) : binGet heap_init i = if i = 5 then [0] else [] := by
  rcases Nat.lt_or_ge i 6 with hi | hi
  · rw [binGet_eq, heap_init_bins]
    interval_cases i <;> simp
  · rw [binGet_big heap_init i (by rw [heap_init_bins]; simpa using hi)]
    rw [if_neg (by omega)]

theorem inv_heap_init : Inv heap_init := by
  refine ⟨?_, ?_, ?_, ?_, ?_, ?_, ?_, ?_⟩
  · intro hinit
    rw [heap_init_flag] at hinit
    cases hinit
  · rw [heap_init_blocks]
    exact List.chain'_singleton _
  · intro b hb
    rw [heap_init_blocks] at hb
    simp at hb
    subst hb
    decide
  · intro _
    rw [heap_init_blocks]
    decide
  · rw [heap_init_bins]
    rfl
  · intro i off hoff
    rw [binGet_heap_init] at hoff
    by_cases hi : i = 5
    · subst hi
      simp at hoff
      subst hoff
      exact ⟨0, ⟨initSize, true⟩, by rw [heap_init_blocks]; rfl, rfl, rfl, size_to_bin_initSize⟩
    · rw [if_neg hi] at hoff
      simp at hoff
  · intro j b hj hb
    rw [heap_init_blocks] at hj
    rcases j with _ | j
    · simp at hj
      subst hj
      rw [binGet_heap_init]
      simp only [size_to_bin_initSize, if_pos rfl]
      simp [offsetAt_zero]
    · simp at hj
  · intro i
    rw [binGet_heap_init]
    split_ifs <;> simp

/-- The state `my_malloc` works on after the lazy-initialization check. -/
theorem inv_lazy (h : Heap) (hInv : Inv h) :
    Inv (if h.heap_initialized then h else heap_init) := by
  split_ifs
  · exact hInv
  · exact inv_heap_init

theorem lazy_flag (h : Heap) :
    (if h.heap_initialized then h else heap_init).heap_initialized = true := by
  split_ifs with hi
  · exact hi
  · exact heap_init_flag

/-! ### Soundness of the bin scan -/

theorem findFitFrom_mem (h : Heap) (sz : ℕ) (is : List ℕ) (off : ℕ)
    (hf : findFitFrom h sz is = some off) :
    ∃ i ∈ is, off ∈ binGet h i ∧ sz ≤ sizeAt h.blocks off := by
  induction is with
  | nil => cases hf
  | cons i rest ih =>
    rw [findFitFrom] at hf
    cases hfind : (binGet h i).find? (fun o => decide (sz ≤ sizeAt h.blocks o)) with
    | some o =>
      rw [hfind] at hf
      cases hf
      exact ⟨i, by simp, List.mem_of_find?_eq_some hfind,
        by simpa using List.find?_some hfind⟩
    | none =>
      rw [hfind] at hf
      rcases ih hf with ⟨i', hi', hmem, hsz⟩
      exact ⟨i', by simp [hi'], hmem, hsz⟩

theorem find_fit_mem (h : Heap) (sz off : ℕ) (hf : find_fit h sz = some off) :
    ∃ i, off ∈ binGet h i ∧ sz ≤ sizeAt h.blocks off := by
  rcases findFitFrom_mem h sz _ off hf with ⟨i, _, hmem, hsz⟩
  exact ⟨i, hmem, hsz⟩

/-- Under the free-list invariants, `find_fit` returns the offset of a free
chain block at least as large as the request. -/
theorem find_fit_block (h : Heap) (hInv : Inv h) (sz off : ℕ)
    (hf : find_fit h sz = some off) :
    ∃ j b, h.blocks[j]? = some b ∧ offsetAt h.blocks j = off ∧ b.free = true ∧ sz ≤ b.size := by
  rcases find_fit_mem h sz off hf with ⟨i, hmem, hsz⟩
  rcases hInv.bins_sound i off hmem with ⟨j, b, hj, hoff, hfree, _⟩
  have hjlen : j < h.blocks.length := (List.getElem?_eq_some.mp hj).1
  have hidx : idxAt h.blocks off = some j := hoff ▸ idxAt_offsetAt _ j hjlen
  have hsizeAt : sizeAt h.blocks off = b.size := by
    rw [sizeAt, hidx]
    simp only [blockAt_of_getElem? _ _ _ hj]
  exact ⟨j, b, hj, hoff, hfree, hsizeAt ▸ hsz⟩

/-! ### Evaluation of `my_malloc` on a decomposed chain -/

theorem my_malloc_fail (h : Heap) (sz : ℕ) (hf : (my_malloc h sz).1 = none) :
    (my_malloc h sz).2 = if h.heap_initialized then h else heap_init := by
  rw [my_malloc] at *
  cases hff : find_fit (if h.heap_initialized then h else heap_init) (align8 sz) with
  | none => simp [hff]
  | some off =>
    cases hidx : idxAt (if h.heap_initialized then h else heap_init).blocks off with
    | none => simp [hff, hidx]
    | some i => simp [hff, hidx] at hf

/-- Evaluation of a successful `my_malloc` whose chosen block is not split:
the chosen block keeps its size, is marked used, and leaves its bin. -/
theorem my_malloc_eq_nosplit (h : Heap) (sz : ℕ) (l₁ l₂ : List Block) (b : Block)
    (hff : find_fit (if h.heap_initialized then h else heap_init) (align8 sz) = some (chainLen l₁))
    (hblocks : (if h.heap_initialized then h else heap_init).blocks = l₁ ++ b :: l₂)
    (hsmall : sub64 b.size (align8 sz) < sizeofBlock + sizeofFooter + ALIGN) :
    my_malloc h sz = (some (chainLen l₁ + sizeofBlock),
      { heap_initialized := (if h.heap_initialized then h else heap_init).heap_initialized
        blocks := l₁ ++ Block.mk b.size false :: l₂
        bins := (if h.heap_initialized then h else heap_init).bins.set (size_to_bin b.size)
          ((binGet (if h.heap_initialized then h else heap_init) (size_to_bin b.size)).erase
            (chainLen l₁))
        stale := (if h.heap_initialized then h else heap_init).stale.filter fun a =>
          decide (a < chainLen l₁) || decide (chainLen l₁ + blockFootprint b ≤ a) }) := by
  have hget : (if h.heap_initialized then h else heap_init).blocks[l₁.length]? = some b := by
    rw [hblocks]; exact getElem?_at_len l₁ l₂ b
  have hidx : idxAt (if h.heap_initialized then h else heap_init).blocks (chainLen l₁) =
      some l₁.length := by
    apply (idxAt_some_iff _ _ _).mpr
    refine ⟨(List.getElem?_eq_some.mp hget).1, ?_⟩
    rw [hblocks]; exact offsetAt_len l₁ _
  have hba : blockAt (if h.heap_initialized then h else heap_init).blocks l₁.length = b :=
    blockAt_of_getElem? _ _ _ hget
  rw [my_malloc, hff]
  simp only [hidx, hba]
  have hsplit : split_block
      (remove_free (if h.heap_initialized then h else heap_init) (chainLen l₁) b.size)
      l₁.length (align8 sz) =
      remove_free (if h.heap_initialized then h else heap_init) (chainLen l₁) b.size := by
    rw [split_block, remove_free_blocks, hget]
    simp only [hsmall, if_true]
  rw [hsplit]
  have hba2 : blockAt
      (remove_free (if h.heap_initialized then h else heap_init) (chainLen l₁) b.size).blocks
      l₁.length = b := by
    rw [remove_free_blocks]; exact hba
  rw [hba2]
  simp only [remove_free_blocks, remove_free_stale, remove_free_flag, hblocks,
    take_at_len, drop_at_len_succ, remove_free]

/-- Evaluation of a successful `my_malloc` whose chosen block is split: the
block is cut to the aligned request and marked used, and the remainder
becomes a new free block inserted into its bin. -/
theorem my_malloc_eq_split (h : Heap) (sz : ℕ) (l₁ l₂ : List Block) (b : Block)
    (hff : find_fit (if h.heap_initialized then h else heap_init) (align8 sz) = some (chainLen l₁))
    (hblocks : (if h.heap_initialized then h else heap_init).blocks = l₁ ++ b :: l₂)
    (hbig : ¬ sub64 b.size (align8 sz) < sizeofBlock + sizeofFooter + ALIGN) :
    my_malloc h sz = (some (chainLen l₁ + sizeofBlock),
      { heap_initialized := (if h.heap_initialized then h else heap_init).heap_initialized
        blocks := l₁ ++ Block.mk (align8 sz) false ::
          Block.mk (sub64 b.size (align8 sz) - sizeofBlock - sizeofFooter) true :: l₂
        bins := (insert_free
          (remove_free (if h.heap_initialized then h else heap_init) (chainLen l₁) b.size)
          (chainLen l₁ + sizeofBlock + align8 sz + sizeofFooter)
          (sub64 b.size (align8 sz) - sizeofBlock - sizeofFooter)).bins
        stale := ((if h.heap_initialized then h else heap_init).stale.filter fun a =>
            decide (a + sizeofBlock + sizeofFooter ≤
              chainLen l₁ + sizeofBlock + align8 sz + sizeofFooter) ||
            decide (chainLen l₁ + sizeofBlock + align8 sz + sizeofFooter +
              sizeofBlock + sizeofFooter ≤ a)).filter
          fun a => decide (a < chainLen l₁) ||
            decide (chainLen l₁ + blockFootprint (Block.mk (align8 sz) b.free) ≤ a) }) := by
  have hget : (if h.heap_initialized then h else heap_init).blocks[l₁.length]? = some b := by
    rw [hblocks]; exact getElem?_at_len l₁ l₂ b
  have hidx : idxAt (if h.heap_initialized then h else heap_init).blocks (chainLen l₁) =
      some l₁.length := by
    apply (idxAt_some_iff _ _ _).mpr
    refine ⟨(List.getElem?_eq_some.mp hget).1, ?_⟩
    rw [hblocks]; exact offsetAt_len l₁ _
  have hba : blockAt (if h.heap_initialized then h else heap_init).blocks l₁.length = b :=
    blockAt_of_getElem? _ _ _ hget
  have hoffAt : offsetAt (if h.heap_initialized then h else heap_init).blocks l₁.length =
      chainLen l₁ := by
    rw [hblocks]; exact offsetAt_len l₁ _
  rw [my_malloc, hff]
  simp only [hidx, hba]
  have hsplit : split_block
      (remove_free (if h.heap_initialized then h else heap_init) (chainLen l₁) b.size)
      l₁.length (align8 sz) =
      { heap_initialized := (if h.heap_initialized then h else heap_init).heap_initialized
        blocks := l₁ ++ Block.mk (align8 sz) b.free ::
          Block.mk (sub64 b.size (align8 sz) - sizeofBlock - sizeofFooter) true :: l₂
        bins := (insert_free
          (remove_free (if h.heap_initialized then h else heap_init) (chainLen l₁) b.size)
          (chainLen l₁ + sizeofBlock + align8 sz + sizeofFooter)
          (sub64 b.size (align8 sz) - sizeofBlock - sizeofFooter)).bins
        stale := (if h.heap_initialized then h else heap_init).stale.filter fun a =>
            decide (a + sizeofBlock + sizeofFooter ≤
              chainLen l₁ + sizeofBlock + align8 sz + sizeofFooter) ||
            decide (chainLen l₁ + sizeofBlock + align8 sz + sizeofFooter +
              sizeofBlock + sizeofFooter ≤ a) } := by
    rw [split_block, remove_free_blocks, hget]
    simp only [hbig, if_false]
    simp only [remove_free_blocks, remove_free_stale, remove_free_flag, hoffAt, hblocks,
      take_at_len, drop_at_len_succ]
    simp only [insert_free, binGet_eq, remove_free_flag, offsetAt_len]
  rw [hsplit]
  have hget2 : (l₁ ++ Block.mk (align8 sz) b.free ::
      Block.mk (sub64 b.size (align8 sz) - sizeofBlock - sizeofFooter) true :: l₂)[l₁.length]? =
      some (Block.mk (align8 sz) b.free) := getElem?_at_len l₁ _ _
  have hba2 : blockAt (l₁ ++ Block.mk (align8 sz) b.free ::
      Block.mk (sub64 b.size (align8 sz) - sizeofBlock - sizeofFooter) true :: l₂) l₁.length =
      Block.mk (align8 sz) b.free := blockAt_of_getElem? _ _ _ hget2
  simp only [hba2, take_at_len, drop_at_len_succ]

/-! ### Generic facts about replacing a segment of the chain -/

theorem chainLen_congr (bs bs' : List Block)
    (hm : bs.map blockFootprint = bs'.map blockFootprint) : chainLen bs = chainLen bs' := by
  rw [chainLen, chainLen, hm]

theorem offsetAt_congr (bs bs' : List Block)
    (hm : bs.map blockFootprint = bs'.map blockFootprint) (k : ℕ) :
    offsetAt bs k = offsetAt bs' k := by
  rw [offsetAt, offsetAt, chainLen, chainLen, List.map_take, List.map_take, hm]

theorem getElem?_replace_ne (l₁ l₂ : List Block) (b c : Block) (k : ℕ) (hk : k ≠ l₁.length) :
    (l₁ ++ c :: l₂)[k]? = (l₁ ++ b :: l₂)[k]? := by
  rcases Nat.lt_or_ge k l₁.length with h | h
  · rw [List.getElem?_append_left h, List.getElem?_append_left h]
  · have hk1 : k = l₁.length + 1 + (k - l₁.length - 1) := by omega
    rw [hk1, getElem?_at_len_succ, getElem?_at_len_succ]

theorem two_mid_assoc (l₁ l₂ : List Block) (c d : Block) :
    l₁ ++ c :: d :: l₂ = (l₁ ++ [c, d]) ++ l₂ := by simp

theorem getElem?_two_mid_left (l₁ l₂ : List Block) (c d : Block) :
    (l₁ ++ c :: d :: l₂)[l₁.length]? = some c := getElem?_at_len l₁ _ c

theorem getElem?_two_mid_right (l₁ l₂ : List Block) (c d : Block) :
    (l₁ ++ c :: d :: l₂)[l₁.length + 1]? = some d := by
  have h : l₁ ++ c :: d :: l₂ = (l₁ ++ [c]) ++ d :: l₂ := by simp
  rw [h]
  have hlen : l₁.length + 1 = (l₁ ++ [c]).length := by simp
  rw [hlen]
  exact getElem?_at_len _ _ d

theorem getElem?_two_mid_past (l₁ l₂ : List Block) (c d : Block) (m : ℕ) :
    (l₁ ++ c :: d :: l₂)[l₁.length + 2 + m]? = l₂[m]? := by
  have h : l₁ ++ c :: d :: l₂ = (l₁ ++ [c]) ++ d :: l₂ := by simp
  have hlen : l₁.length + 2 + m = (l₁ ++ [c]).length + 1 + m := by simp
  rw [h, hlen]
  exact getElem?_at_len_succ _ _ d m

theorem offsetAt_two_mid_left (l₁ l₂ : List Block) (c d : Block) :
    offsetAt (l₁ ++ c :: d :: l₂) l₁.length = chainLen l₁ := offsetAt_len l₁ _

theorem offsetAt_two_mid_right (l₁ l₂ : List Block) (c d : Block) :
    offsetAt (l₁ ++ c :: d :: l₂) (l₁.length + 1) = chainLen l₁ + blockFootprint c := by
  have h : l₁ ++ c :: d :: l₂ = (l₁ ++ [c]) ++ d :: l₂ := by simp
  have hlen : l₁.length + 1 = (l₁ ++ [c]).length := by simp
  rw [h, hlen, offsetAt_len, chainLen_append, chainLen_singleton]

theorem offsetAt_two_mid_past (l₁ l₂ : List Block) (c d : Block) (m : ℕ) :
    offsetAt (l₁ ++ c :: d :: l₂) (l₁.length + 2 + m) =
      chainLen l₁ + blockFootprint c + blockFootprint d + offsetAt l₂ m := by
  rw [two_mid_assoc]
  have hlen : l₁.length + 2 + m = (l₁ ++ [c, d]).length + m := by simp
  rw [hlen, offsetAt_back, chainLen_append]
  simp [chainLen_cons, chainLen_nil]
  omega

theorem offsetAt_one_mid_past (l₁ l₂ : List Block) (b : Block) (m : ℕ) :
    offsetAt (l₁ ++ b :: l₂) (l₁.length + 1 + m) =
      chainLen l₁ + blockFootprint b + offsetAt l₂ m := by
  have h : l₁ ++ b :: l₂ = (l₁ ++ [b]) ++ l₂ := by simp
  have hlen : l₁.length + 1 + m = (l₁ ++ [b]).length + m := by simp
  rw [h, hlen, offsetAt_back, chainLen_append, chainLen_singleton]

/-! ### Assembling and decomposing the no-adjacent-free chain condition -/

theorem noadj_decomp (l₁ l₂ : List Block) (b : Block) (h : NoAdjFree (l₁ ++ b :: l₂)) :
    NoAdjFree l₁ ∧ NoAdjFree l₂ ∧
      (∀ x ∈ l₁.getLast?, x.free = false ∨ b.free = false) ∧
      (∀ y ∈ l₂.head?, b.free = false ∨ y.free = false) := by
  rw [NoAdjFree, List.chain'_append] at h
  rcases h with ⟨h₁, h₂, he⟩
  rw [List.chain'_cons'] at h₂
  exact ⟨h₁, h₂.2, fun x hx => he x hx b rfl, h₂.1⟩

theorem noadj_assemble_one (l₁ l₂ : List Block) (c : Block)
    (h₁ : NoAdjFree l₁) (h₂ : NoAdjFree l₂)
    (hl : ∀ x ∈ l₁.getLast?, x.free = false ∨ c.free = false)
    (hr : ∀ y ∈ l₂.head?, c.free = false ∨ y.free = false) :
    NoAdjFree (l₁ ++ c :: l₂) := by
  rw [NoAdjFree, List.chain'_append]
  exact ⟨h₁, List.chain'_cons'.mpr ⟨hr, h₂⟩, fun x hx y hy => by
    cases hy; exact hl x hx⟩

theorem noadj_assemble_two (l₁ l₂ : List Block) (c d : Block)
    (h₁ : NoAdjFree l₁) (h₂ : NoAdjFree l₂)
    (hl : ∀ x ∈ l₁.getLast?, x.free = false ∨ c.free = false)
    (hm : c.free = false ∨ d.free = false)
    (hr : ∀ y ∈ l₂.head?, d.free = false ∨ y.free = false) :
    NoAdjFree (l₁ ++ c :: d :: l₂) := by
  rw [NoAdjFree, List.chain'_append]
  refine ⟨h₁, ?_, fun x hx y hy => by cases hy; exact hl x hx⟩
  exact List.chain'_cons'.mpr ⟨fun y hy => by cases hy; exact hm,
    List.chain'_cons'.mpr ⟨hr, h₂⟩⟩

/-! ### Size bounds from the arena-coverage invariant -/

theorem footprint_le_chainLen (bs : List Block) (b : Block) (hb : b ∈ bs) :
    blockFootprint b ≤ chainLen bs := by
  exact List.single_le_sum (fun x _ => Nat.zero_le x) _ (List.mem_map_of_mem blockFootprint hb)

theorem block_size_bound (h : Heap) (hInv : Inv h) (hflag : h.heap_initialized = true)
    (b : Block) (hb : b ∈ h.blocks) : b.size + 56 ≤ HEAP_SIZE := by
  have h1 := footprint_le_chainLen h.blocks b hb
  rw [hInv.total hflag] at h1
  rw [blockFootprint_eq] at h1
  omega

theorem heap_size_lt_u64 : HEAP_SIZE < U64 := by decide

/-! ### Bin lookup after a `set` -/

theorem getDL_set_self (L : List (List ℕ)) (idx : ℕ) (l : List ℕ) (h : idx < L.length) :
    (L.set idx l).getD idx [] = l := by
  rw [List.getD_eq_getElem?_getD, List.getElem?_set_eq_of_lt l h]
  rfl

theorem getDL_set_ne (L : List (List ℕ)) (idx i : ℕ) (l : List ℕ) (h : i ≠ idx) :
    (L.set idx l).getD i [] = L.getD i [] := by
  rw [List.getD_eq_getElem?_getD, List.getD_eq_getElem?_getD, List.getElem?_set_ne (Ne.symm h)]

/-! ### Success analysis of `my_malloc` -/

theorem my_malloc_fst (h : Heap) (sz off i : ℕ)
    (hff : find_fit (if h.heap_initialized then h else heap_init) (align8 sz) = some off)
    (hidx : idxAt (if h.heap_initialized then h else heap_init).blocks off = some i) :
    (my_malloc h sz).1 = some (off + sizeofBlock) := by
  rw [my_malloc, hff]
  simp only [hidx]

theorem my_malloc_some_elim (h : Heap) (hInv : Inv h) (sz p : ℕ)
    (hp : (my_malloc h sz).1 = some p) :
    ∃ l₁ b l₂,
      (if h.heap_initialized then h else heap_init).blocks = l₁ ++ b :: l₂ ∧
      b.free = true ∧ align8 sz ≤ b.size ∧ p = chainLen l₁ + sizeofBlock ∧
      find_fit (if h.heap_initialized then h else heap_init) (align8 sz) =
        some (chainLen l₁) := by
  have hInv0 := inv_lazy h hInv
  cases hff : find_fit (if h.heap_initialized then h else heap_init) (align8 sz) with
  | none =>
    rw [my_malloc, hff] at hp
    simp at hp
  | some off =>
    rcases find_fit_block _ hInv0 _ off hff with ⟨j, b, hj, hoffj, hfree, hsz⟩
    rcases decomp_of_getElem? _ j b hj with ⟨l₁, l₂, hblocks, hlen⟩
    have hofc : off = chainLen l₁ := by
      rw [← hoffj, hblocks, ← hlen, offsetAt_len]
    have hidx : idxAt (if h.heap_initialized then h else heap_init).blocks off = some j :=
      (idxAt_some_iff _ _ _).mpr ⟨(List.getElem?_eq_some.mp hj).1, hoffj⟩
    have hfst := my_malloc_fst h sz off j hff hidx
    rw [hp] at hfst
    have hpe : p = off + sizeofBlock := by
      injection hfst
    have hA : p = chainLen l₁ + sizeofBlock := by rw [hpe, hofc]
    exact ⟨l₁, b, l₂, hblocks, hfree, hsz, hA, by rw [hofc]⟩

/-! ### `my_malloc` preserves the invariants -/

theorem inv_my_malloc_split (h : Heap) (hInv : Inv h) (sz : ℕ)
    (l₁ : List Block) (b : Block) (l₂ : List Block)
    (hblocks : (if h.heap_initialized then h else heap_init).blocks = l₁ ++ b :: l₂)
    (hfree : b.free = true) (hsz : align8 sz ≤ b.size)
    (hff : find_fit (if h.heap_initialized then h else heap_init) (align8 sz) =
      some (chainLen l₁))
    (hbig : ¬ sub64 b.size (align8 sz) < sizeofBlock + sizeofFooter + ALIGN) :
    Inv (my_malloc h sz).2 := by
  have hInv0 := inv_lazy h hInv
  have hflag0 := lazy_flag h
  have heq := my_malloc_eq_split h sz l₁ l₂ b hff hblocks hbig
  rw [heq]
  have hlen1 : l₁.length < (if h.heap_initialized then h else heap_init).blocks.length := by
    rw [hblocks]; simp
  have hb_mem : b ∈ (if h.heap_initialized then h else heap_init).blocks := by
    rw [hblocks]; simp
  have hsize8 : 8 ∣ b.size := hInv0.sizes b hb_mem
  have halign8 : 8 ∣ align8 sz := align8_dvd sz
  have hbound : b.size + 56 ≤ HEAP_SIZE := block_size_bound _ hInv0 hflag0 b hb_mem
  have hbu64 : b.size < U64 := by
    have := heap_size_lt_u64
    omega
  have hrem : sub64 b.size (align8 sz) = b.size - align8 sz := sub64_eq _ _ hsz hbu64
  have hrem64 : 64 ≤ b.size - align8 sz := by
    rw [hrem] at hbig
    simp only [sizeofBlock, sizeofFooter, ALIGN] at hbig
    omega
  have hoffl : offsetAt (if h.heap_initialized then h else heap_init).blocks l₁.length =
      chainLen l₁ := by
    rw [hblocks, offsetAt_len]
  -- notation for the two new blocks
  set bu : Block := Block.mk (align8 sz) false with hbu
  set newb : Block := Block.mk (sub64 b.size (align8 sz) - sizeofBlock - sizeofFooter) true
    with hnewb
  have hnewbsize : newb.size = b.size - align8 sz - 56 := by
    rw [hnewb]
    simp only [sizeofBlock, sizeofFooter]
    omega
  have hfpbu : blockFootprint bu = 56 + align8 sz := by
    rw [blockFootprint_eq]
  have hfpsum : blockFootprint bu + blockFootprint newb = blockFootprint b := by
    rw [blockFootprint_eq, blockFootprint_eq, blockFootprint_eq, hnewbsize, hbu]
    simp only
    omega
  have hnewoff : chainLen l₁ + sizeofBlock + align8 sz + sizeofFooter =
      chainLen l₁ + blockFootprint bu := by
    rw [hfpbu]
    simp only [sizeofBlock, sizeofFooter]
    omega
  -- translation of block positions between the old and the new chain
  have htrans : ∀ j' : ℕ, ∀ b' : Block,
      (if h.heap_initialized then h else heap_init).blocks[j']? = some b' → j' ≠ l₁.length →
      ∃ k, (l₁ ++ bu :: newb :: l₂)[k]? = some b' ∧
        offsetAt (l₁ ++ bu :: newb :: l₂) k =
          offsetAt (if h.heap_initialized then h else heap_init).blocks j' := by
    intro j' b' hj' hne
    rw [hblocks] at hj'
    rcases Nat.lt_or_ge j' l₁.length with hlt | hge
    · refine ⟨j', ?_, ?_⟩
      · rw [List.getElem?_append_left hlt]
        rw [List.getElem?_append_left hlt] at hj'
        exact hj'
      · rw [offsetAt_front _ _ _ (Nat.le_of_lt hlt), hblocks,
          offsetAt_front _ _ _ (Nat.le_of_lt hlt)]
    · have hgt : l₁.length + 1 ≤ j' := by omega
      have hj'' : j' = l₁.length + 1 + (j' - l₁.length - 1) := by omega
      refine ⟨j' + 1, ?_, ?_⟩
      · rw [hj''] at hj'
        rw [getElem?_at_len_succ] at hj'
        have hk : j' + 1 = l₁.length + 2 + (j' - l₁.length - 1) := by omega
        rw [hk, getElem?_two_mid_past]
        exact hj'
      · have hL : offsetAt (l₁ ++ bu :: newb :: l₂) (j' + 1) =
            chainLen l₁ + blockFootprint bu + blockFootprint newb +
              offsetAt l₂ (j' - l₁.length - 1) := by
          rw [show j' + 1 = l₁.length + 2 + (j' - l₁.length - 1) from by omega]
          exact offsetAt_two_mid_past l₁ l₂ bu newb _
        have hR : offsetAt (if h.heap_initialized then h else heap_init).blocks j' =
            chainLen l₁ + blockFootprint b + offsetAt l₂ (j' - l₁.length - 1) := by
          rw [hblocks]
          conv_lhs => rw [show j' = l₁.length + 1 + (j' - l₁.length - 1) from by omega]
          exact offsetAt_one_mid_past l₁ l₂ b _
        rw [hL, hR]
        omega
  -- no old block sits at the offset of the new free block
  have hnewoff_notold : ∀ j' : ℕ,
      j' < (if h.heap_initialized then h else heap_init).blocks.length →
      offsetAt (if h.heap_initialized then h else heap_init).blocks j' ≠
        chainLen l₁ + sizeofBlock + align8 sz + sizeofFooter := by
    intro j' hj' habs
    rcases le_or_lt j' l₁.length with hle | hgt
    · have h1 : offsetAt (if h.heap_initialized then h else heap_init).blocks j' ≤ chainLen l₁ := by
        rw [← hoffl]
        exact offsetAt_le _ j' l₁.length hle
      have := blockFootprint_ge bu
      rw [hnewoff] at habs
      omega
    · have h1 : offsetAt (if h.heap_initialized then h else heap_init).blocks (l₁.length + 1) ≤
          offsetAt (if h.heap_initialized then h else heap_init).blocks j' :=
        offsetAt_le _ _ _ hgt
      have h2 : offsetAt (if h.heap_initialized then h else heap_init).blocks (l₁.length + 1) =
          chainLen l₁ + blockFootprint b := by
        rw [hblocks]
        have := offsetAt_one_mid_past l₁ l₂ b 0
        simpa [offsetAt_zero] using this
      have h3 : blockFootprint bu < blockFootprint b := by
        rw [blockFootprint_eq, blockFootprint_eq, hbu]
        simp only
        omega
      rw [hnewoff] at habs
      omega
  -- the bins of the result state
  have hbinlenRF : (remove_free (if h.heap_initialized then h else heap_init)
      (chainLen l₁) b.size).bins.length = NUM_BINS := by
    rw [remove_free_binlen, hInv0.binlen]
  have hbinsS : ∀ i : ℕ,
      binGet (insert_free (remove_free (if h.heap_initialized then h else heap_init)
        (chainLen l₁) b.size) (chainLen l₁ + sizeofBlock + align8 sz + sizeofFooter)
        newb.size) i =
      if i = size_to_bin newb.size then
        (chainLen l₁ + sizeofBlock + align8 sz + sizeofFooter) ::
          binGet (remove_free (if h.heap_initialized then h else heap_init)
            (chainLen l₁) b.size) i
      else binGet (remove_free (if h.heap_initialized then h else heap_init)
        (chainLen l₁) b.size) i := by
    intro i
    exact binGet_insert_free _ _ _ i hbinlenRF
  have hbinsRF : ∀ i : ℕ,
      binGet (remove_free (if h.heap_initialized then h else heap_init)
        (chainLen l₁) b.size) i =
      if i = size_to_bin b.size then
        (binGet (if h.heap_initialized then h else heap_init) i).erase (chainLen l₁)
      else binGet (if h.heap_initialized then h else heap_init) i := by
    intro i
    exact binGet_remove_free _ _ _ i hInv0.binlen
  -- every entry that survives `remove_free` is an old entry other than the
  -- chosen block's offset
  have hRFsub : ∀ i off' : ℕ,
      off' ∈ binGet (remove_free (if h.heap_initialized then h else heap_init)
        (chainLen l₁) b.size) i →
      off' ∈ binGet (if h.heap_initialized then h else heap_init) i ∧ off' ≠ chainLen l₁ := by
    intro i off' hmem
    rw [hbinsRF i] at hmem
    by_cases hieq : i = size_to_bin b.size
    · rw [if_pos hieq] at hmem
      rcases (hInv0.bins_nodup i).mem_erase_iff.mp hmem with ⟨hne, hm⟩
      exact ⟨hm, hne⟩
    · rw [if_neg hieq] at hmem
      refine ⟨hmem, ?_⟩
      intro habs
      rcases hInv0.bins_sound i off' hmem with ⟨j', b', hj', hoffj', _, hclass'⟩
      have hjlen' : j' < (if h.heap_initialized then h else heap_init).blocks.length :=
        (List.getElem?_eq_some.mp hj').1
      have : j' = l₁.length :=
        offsetAt_inj _ j' l₁.length hjlen' hlen1 (by rw [hoffj', habs, hoffl])
      rw [this] at hj'
      rw [hblocks, getElem?_at_len] at hj'
      have hb'b : b' = b := by
        injection hj' with hh
        exact hh.symm
      rw [hb'b] at hclass'
      exact hieq hclass'.symm
  -- old bin entries other than the chosen offset transfer to the new state
  have hentry : ∀ i off' : ℕ,
      off' ∈ binGet (if h.heap_initialized then h else heap_init) i → off' ≠ chainLen l₁ →
      ∃ j b', (l₁ ++ bu :: newb :: l₂)[j]? = some b' ∧
        offsetAt (l₁ ++ bu :: newb :: l₂) j = off' ∧ b'.free = true ∧
        size_to_bin b'.size = i := by
    intro i off' hmem hne
    rcases hInv0.bins_sound i off' hmem with ⟨j', b', hj', hoffj', hfree', hclass'⟩
    have hjlen' : j' < (if h.heap_initialized then h else heap_init).blocks.length :=
      (List.getElem?_eq_some.mp hj').1
    have hjne : j' ≠ l₁.length := by
      intro hjj
      rw [hjj, hoffl] at hoffj'
      exact hne hoffj'.symm
    rcases htrans j' b' hj' hjne with ⟨k, hk, hoffk⟩
    exact ⟨k, b', hk, by rw [hoffk]; exact hoffj', hfree', hclass'⟩
  refine ⟨?_, ?_, ?_, ?_, ?_, ?_, ?_, ?_⟩
  · intro hfl
    rw [hflag0] at hfl
    cases hfl
  · have h0adj := hInv0.noadj
    rw [hblocks] at h0adj
    rcases noadj_decomp l₁ l₂ b h0adj with ⟨h₁, h₂, _, hedge⟩
    refine noadj_assemble_two l₁ l₂ bu newb h₁ h₂ (fun x _ => Or.inr rfl) (Or.inl rfl) ?_
    intro y hy
    rcases hedge y hy with hbf | hyf
    · rw [hfree] at hbf
      cases hbf
    · exact Or.inr hyf
  · intro c hc
    rcases List.mem_append.mp hc with hcl | hcr
    · exact hInv0.sizes c (by rw [hblocks]; exact List.mem_append.mpr (Or.inl hcl))
    · rcases List.mem_cons.mp hcr with hce | hcr2
      · rw [hce, hbu]
        exact halign8
      · rcases List.mem_cons.mp hcr2 with hce2 | hcl₂
        · rw [hce2, hnewbsize]
          exact Nat.dvd_sub' (Nat.dvd_sub' hsize8 halign8) (by norm_num)
        · exact hInv0.sizes c (by rw [hblocks]; simp [hcl₂])
  · intro _
    have hch : chainLen (l₁ ++ bu :: newb :: l₂) =
        chainLen ((if h.heap_initialized then h else heap_init).blocks) := by
      rw [hblocks, chainLen_append, chainLen_append, chainLen_cons, chainLen_cons,
        chainLen_cons]
      omega
    rw [hch]
    exact hInv0.total hflag0
  · show (insert_free _ _ _).bins.length = NUM_BINS
    rw [insert_free_binlen]
    exact hbinlenRF
  · intro i off' hoff'
    have hoff'2 : off' ∈ binGet (insert_free (remove_free
        (if h.heap_initialized then h else heap_init) (chainLen l₁) b.size)
        (chainLen l₁ + sizeofBlock + align8 sz + sizeofFooter) newb.size) i := hoff'
    rw [hbinsS i] at hoff'2
    by_cases hieq : i = size_to_bin newb.size
    · rw [if_pos hieq] at hoff'2
      rcases List.mem_cons.mp hoff'2 with hhd | htl
      · refine ⟨l₁.length + 1, newb, getElem?_two_mid_right l₁ l₂ bu newb, ?_, rfl, ?_⟩
        · rw [offsetAt_two_mid_right, hhd, hnewoff]
        · rw [hieq]
      · rcases hRFsub i off' htl with ⟨hm0, hne0⟩
        exact hentry i off' hm0 hne0
    · rw [if_neg hieq] at hoff'2
      rcases hRFsub i off' hoff'2 with ⟨hm0, hne0⟩
      exact hentry i off' hm0 hne0
  · intro k c hk hc
    by_cases hk0 : k = l₁.length
    · subst hk0
      rw [getElem?_two_mid_left] at hk
      have : c = bu := by
        injection hk with hh
        exact hh.symm
      rw [this, hbu] at hc
      cases hc
    · by_cases hk1 : k = l₁.length + 1
      · subst hk1
        rw [getElem?_two_mid_right] at hk
        have hcnew : c = newb := by
          injection hk with hh
          exact hh.symm
        rw [hcnew, offsetAt_two_mid_right]
        rw [show binGet
            { heap_initialized := (if h.heap_initialized = true then h else heap_init).heap_initialized,
              blocks := l₁ ++ bu :: newb :: l₂,
              bins := (insert_free (remove_free (if h.heap_initialized = true then h else heap_init)
                (chainLen l₁) b.size)
                (chainLen l₁ + sizeofBlock + align8 sz + sizeofFooter) newb.size).bins,
              stale := _ } (size_to_bin newb.size) =
            binGet (insert_free (remove_free (if h.heap_initialized = true then h else heap_init)
                (chainLen l₁) b.size)
                (chainLen l₁ + sizeofBlock + align8 sz + sizeofFooter) newb.size)
              (size_to_bin newb.size) from rfl]
        rw [hbinsS (size_to_bin newb.size), if_pos rfl]
        rw [← hnewoff]
        exact List.mem_cons_self _ _
      · -- an untouched block: translate back to the old chain
        have hklen : k < (l₁ ++ bu :: newb :: l₂).length := (List.getElem?_eq_some.mp hk).1
        have hrev : ∃ j', (if h.heap_initialized then h else heap_init).blocks[j']? = some c ∧
            offsetAt (if h.heap_initialized then h else heap_init).blocks j' =
              offsetAt (l₁ ++ bu :: newb :: l₂) k ∧ j' ≠ l₁.length := by
          rcases Nat.lt_or_ge k l₁.length with hlt | hge
          · refine ⟨k, ?_, ?_, by omega⟩
            · rw [hblocks, List.getElem?_append_left hlt]
              rw [List.getElem?_append_left hlt] at hk
              exact hk
            · rw [hblocks, offsetAt_front _ _ _ (Nat.le_of_lt hlt),
                offsetAt_front _ _ _ (Nat.le_of_lt hlt)]
          · have hge2 : l₁.length + 2 ≤ k := by omega
            have hkk : k = l₁.length + 2 + (k - l₁.length - 2) := by omega
            refine ⟨k - 1, ?_, ?_, by omega⟩
            · rw [hkk, getElem?_two_mid_past] at hk
              have hkk2 : k - 1 = l₁.length + 1 + (k - l₁.length - 2) := by omega
              rw [hblocks, hkk2, getElem?_at_len_succ]
              exact hk
            · have hL : offsetAt (l₁ ++ bu :: newb :: l₂) k =
                  chainLen l₁ + blockFootprint bu + blockFootprint newb +
                    offsetAt l₂ (k - l₁.length - 2) := by
                conv_lhs => rw [show k = l₁.length + 2 + (k - l₁.length - 2) from by omega]
                exact offsetAt_two_mid_past l₁ l₂ bu newb _
              have hR : offsetAt (l₁ ++ b :: l₂) (k - 1) =
                  chainLen l₁ + blockFootprint b + offsetAt l₂ (k - l₁.length - 2) := by
                conv_lhs => rw [show k - 1 = l₁.length + 1 + (k - l₁.length - 2) from by omega]
                exact offsetAt_one_mid_past l₁ l₂ b _
              rw [hblocks, hL, hR]
              omega
        rcases hrev with ⟨j', hj', hoffeq, hjne⟩
        have hmem := hInv0.bins_complete j' c hj' hc
        have hjlen' : j' < (if h.heap_initialized then h else heap_init).blocks.length :=
          (List.getElem?_eq_some.mp hj').1
        have hoff_ne : offsetAt (if h.heap_initialized then h else heap_init).blocks j' ≠
            chainLen l₁ := by
          intro habs
          exact hjne (offsetAt_inj _ j' l₁.length hjlen' hlen1 (by rw [habs, hoffl]))
        rw [← hoffeq]
        rw [show binGet
            { heap_initialized := (if h.heap_initialized = true then h else heap_init).heap_initialized,
              blocks := l₁ ++ bu :: newb :: l₂,
              bins := (insert_free (remove_free (if h.heap_initialized = true then h else heap_init)
                (chainLen l₁) b.size)
                (chainLen l₁ + sizeofBlock + align8 sz + sizeofFooter) newb.size).bins,
              stale := _ } (size_to_bin c.size) =
            binGet (insert_free (remove_free (if h.heap_initialized = true then h else heap_init)
                (chainLen l₁) b.size)
                (chainLen l₁ + sizeofBlock + align8 sz + sizeofFooter) newb.size)
              (size_to_bin c.size) from rfl]
        rw [hbinsS (size_to_bin c.size)]
        have hinRF : offsetAt (if h.heap_initialized then h else heap_init).blocks j' ∈
            binGet (remove_free (if h.heap_initialized then h else heap_init)
              (chainLen l₁) b.size) (size_to_bin c.size) := by
          rw [hbinsRF (size_to_bin c.size)]
          by_cases hce : size_to_bin c.size = size_to_bin b.size
          · rw [if_pos hce]
            exact (hInv0.bins_nodup _).mem_erase_iff.mpr ⟨hoff_ne, hce ▸ hmem⟩
          · rw [if_neg hce]
            exact hmem
        by_cases hcn : size_to_bin c.size = size_to_bin newb.size
        · rw [if_pos hcn]
          exact List.mem_cons_of_mem _ hinRF
        · rw [if_neg hcn]
          exact hinRF
  · intro i
    have hnodupRF : ∀ i' : ℕ, (binGet (remove_free
        (if h.heap_initialized then h else heap_init) (chainLen l₁) b.size) i').Nodup := by
      intro i'
      rw [hbinsRF i']
      by_cases hce : i' = size_to_bin b.size
      · rw [if_pos hce]
        exact (hInv0.bins_nodup i').erase _
      · rw [if_neg hce]
        exact hInv0.bins_nodup i'
    show (binGet (insert_free (remove_free (if h.heap_initialized then h else heap_init)
        (chainLen l₁) b.size)
        (chainLen l₁ + sizeofBlock + align8 sz + sizeofFooter) newb.size) i).Nodup
    rw [hbinsS i]
    by_cases hieq : i = size_to_bin newb.size
    · rw [if_pos hieq]
      refine List.Nodup.cons ?_ (hnodupRF i)
      intro habs
      rcases hRFsub i _ habs with ⟨hm0, _⟩
      rcases hInv0.bins_sound i _ hm0 with ⟨j', b', hj', hoffj', _, _⟩
      have hjlen' : j' < (if h.heap_initialized then h else heap_init).blocks.length :=
        (List.getElem?_eq_some.mp hj').1
      exact hnewoff_notold j' hjlen' hoffj'
    · rw [if_neg hieq]
      exact hnodupRF i

theorem inv_my_malloc (h : Heap) (hInv : Inv h) (sz : ℕ) : Inv (my_malloc h sz).2 := by
  have hInv0 := inv_lazy h hInv
  have hflag0 := lazy_flag h
  cases hp : (my_malloc h sz).1 with
  | none =>
    rw [my_malloc_fail h sz hp]
    exact hInv0
  | some p =>
    rcases my_malloc_some_elim h hInv sz p hp with ⟨l₁, b, l₂, hblocks, hfree, hsz, hpe, hff⟩
    have hlen1 : l₁.length < (if h.heap_initialized then h else heap_init).blocks.length := by
      rw [hblocks]
      simp
    have hb_mem : b ∈ (if h.heap_initialized then h else heap_init).blocks := by
      rw [hblocks]
      simp
    have hsize8 : 8 ∣ b.size := hInv0.sizes b hb_mem
    have hbound : b.size + 56 ≤ HEAP_SIZE :=
      block_size_bound _ hInv0 hflag0 b hb_mem
    have hbu64 : b.size < U64 := by
      have := heap_size_lt_u64
      omega
    have hoffl : offsetAt (if h.heap_initialized then h else heap_init).blocks l₁.length =
        chainLen l₁ := by
      rw [hblocks, offsetAt_len]
    by_cases hsmall : sub64 b.size (align8 sz) < sizeofBlock + sizeofFooter + ALIGN
    · -- no split: the chosen block is only marked used and leaves its bin
      have heq := my_malloc_eq_nosplit h sz l₁ l₂ b hff hblocks hsmall
      rw [heq]
      have hmapeq : (l₁ ++ Block.mk b.size false :: l₂).map blockFootprint =
          (l₁ ++ b :: l₂).map blockFootprint := by
        simp [blockFootprint]
      have hib : size_to_bin b.size < (if h.heap_initialized then h else heap_init).bins.length := by
        rw [hInv0.binlen]
        exact size_to_bin_lt b.size
      refine ⟨?_, ?_, ?_, ?_, ?_, ?_, ?_, ?_⟩
      · intro hfl
        rw [hflag0] at hfl
        cases hfl
      · have h0adj := hInv0.noadj
        rw [hblocks] at h0adj
        rcases noadj_decomp l₁ l₂ b h0adj with ⟨h₁, h₂, _, _⟩
        exact noadj_assemble_one l₁ l₂ _ h₁ h₂ (fun x _ => Or.inr rfl) (fun y _ => Or.inl rfl)
      · intro c hc
        rcases List.mem_append.mp hc with hcl | hcr
        · exact hInv0.sizes c (by rw [hblocks]; exact List.mem_append.mpr (Or.inl hcl))
        · rcases List.mem_cons.mp hcr with hce | hcl₂
          · rw [hce]
            exact hsize8
          · exact hInv0.sizes c (by rw [hblocks]; simp [hcl₂])
      · intro _
        have : chainLen (l₁ ++ Block.mk b.size false :: l₂) = chainLen (l₁ ++ b :: l₂) :=
          chainLen_congr _ _ hmapeq
        rw [this, ← hblocks]
        exact hInv0.total hflag0
      · simp [hInv0.binlen]
      · intro i off' hoff'
        by_cases hieq : i = size_to_bin b.size
        · subst hieq
          rw [show binGet
              { heap_initialized := (if h.heap_initialized = true then h else heap_init).heap_initialized,
                blocks := l₁ ++ Block.mk b.size false :: l₂,
                bins := (if h.heap_initialized = true then h else heap_init).bins.set (size_to_bin b.size)
                  ((binGet (if h.heap_initialized = true then h else heap_init) (size_to_bin b.size)).erase
                    (chainLen l₁)),
                stale := List.filter
                  (fun a => decide (a < chainLen l₁) || decide (chainLen l₁ + blockFootprint b ≤ a))
                  (if h.heap_initialized = true then h else heap_init).stale } (size_to_bin b.size) =
              (binGet (if h.heap_initialized = true then h else heap_init) (size_to_bin b.size)).erase
                (chainLen l₁) from getDL_set_self _ _ _ hib] at hoff'
          rcases (hInv0.bins_nodup _).mem_erase_iff.mp hoff' with ⟨hne, hmem⟩
          rcases hInv0.bins_sound _ off' hmem with ⟨j', b', hj', hoffj', hfree', hclass'⟩
          have hjlen' : j' < (if h.heap_initialized then h else heap_init).blocks.length :=
            (List.getElem?_eq_some.mp hj').1
          have hjne : j' ≠ l₁.length := by
            intro hjj
            rw [hjj, hoffl] at hoffj'
            exact hne hoffj'.symm
          refine ⟨j', b', ?_, ?_, hfree', hclass'⟩
          · show (l₁ ++ Block.mk b.size false :: l₂)[j']? = some b'
            rw [getElem?_replace_ne l₁ l₂ b _ j' hjne, ← hblocks]
            exact hj'
          · show offsetAt (l₁ ++ Block.mk b.size false :: l₂) j' = off'
            rw [offsetAt_congr _ _ hmapeq, ← hblocks]
            exact hoffj'
        · rw [show binGet
              { heap_initialized := (if h.heap_initialized = true then h else heap_init).heap_initialized,
                blocks := l₁ ++ Block.mk b.size false :: l₂,
                bins := (if h.heap_initialized = true then h else heap_init).bins.set (size_to_bin b.size)
                  ((binGet (if h.heap_initialized = true then h else heap_init) (size_to_bin b.size)).erase
                    (chainLen l₁)),
                stale := List.filter
                  (fun a => decide (a < chainLen l₁) || decide (chainLen l₁ + blockFootprint b ≤ a))
                  (if h.heap_initialized = true then h else heap_init).stale } i =
              binGet (if h.heap_initialized = true then h else heap_init) i from
            getDL_set_ne _ _ _ _ hieq] at hoff'
          rcases hInv0.bins_sound i off' hoff' with ⟨j', b', hj', hoffj', hfree', hclass'⟩
          have hjne : j' ≠ l₁.length := by
            intro hjj
            rw [hjj] at hj'
            have : b' = b := by
              rw [hblocks, getElem?_at_len] at hj'
              injection hj' with hh
              exact hh.symm
            rw [this] at hclass'
            exact hieq hclass'.symm
          refine ⟨j', b', ?_, ?_, hfree', hclass'⟩
          · show (l₁ ++ Block.mk b.size false :: l₂)[j']? = some b'
            rw [getElem?_replace_ne l₁ l₂ b _ j' hjne, ← hblocks]
            exact hj'
          · show offsetAt (l₁ ++ Block.mk b.size false :: l₂) j' = off'
            rw [offsetAt_congr _ _ hmapeq, ← hblocks]
            exact hoffj'
      · intro j c hj hc
        by_cases hje : j = l₁.length
        · subst hje
          have : c = Block.mk b.size false := by
            have h2 : (l₁ ++ Block.mk b.size false :: l₂)[l₁.length]? =
                some (Block.mk b.size false) := getElem?_at_len l₁ l₂ _
            rw [h2] at hj
            injection hj with hh
            exact hh.symm
          rw [this] at hc
          cases hc
        · have hjold : (if h.heap_initialized then h else heap_init).blocks[j]? = some c := by
            rw [hblocks, ← getElem?_replace_ne l₁ l₂ b (Block.mk b.size false) j hje]
            exact hj
          have hmem := hInv0.bins_complete j c hjold hc
          have hjlt : j < (if h.heap_initialized then h else heap_init).blocks.length :=
            (List.getElem?_eq_some.mp hjold).1
          have hoffeq : offsetAt (l₁ ++ Block.mk b.size false :: l₂) j =
              offsetAt (if h.heap_initialized then h else heap_init).blocks j := by
            rw [offsetAt_congr _ _ hmapeq, ← hblocks]
          rw [hoffeq]
          by_cases hce : size_to_bin c.size = size_to_bin b.size
          · rw [hce]
            rw [show binGet
                { heap_initialized := (if h.heap_initialized = true then h else heap_init).heap_initialized,
                  blocks := l₁ ++ Block.mk b.size false :: l₂,
                  bins := (if h.heap_initialized = true then h else heap_init).bins.set (size_to_bin b.size)
                    ((binGet (if h.heap_initialized = true then h else heap_init) (size_to_bin b.size)).erase
                      (chainLen l₁)),
                  stale := List.filter
                    (fun a => decide (a < chainLen l₁) || decide (chainLen l₁ + blockFootprint b ≤ a))
                    (if h.heap_initialized = true then h else heap_init).stale } (size_to_bin b.size) =
                (binGet (if h.heap_initialized = true then h else heap_init) (size_to_bin b.size)).erase
                  (chainLen l₁) from getDL_set_self _ _ _ hib]
            refine (hInv0.bins_nodup _).mem_erase_iff.mpr ⟨?_, hce ▸ hmem⟩
            intro habs
            apply hje
            exact offsetAt_inj _ j l₁.length hjlt hlen1 (by rw [habs, hoffl])
          · rw [show binGet
                { heap_initialized := (if h.heap_initialized = true then h else heap_init).heap_initialized,
                  blocks := l₁ ++ Block.mk b.size false :: l₂,
                  bins := (if h.heap_initialized = true then h else heap_init).bins.set (size_to_bin b.size)
                    ((binGet (if h.heap_initialized = true then h else heap_init) (size_to_bin b.size)).erase
                      (chainLen l₁)),
                  stale := List.filter
                    (fun a => decide (a < chainLen l₁) || decide (chainLen l₁ + blockFootprint b ≤ a))
                    (if h.heap_initialized = true then h else heap_init).stale } (size_to_bin c.size) =
                binGet (if h.heap_initialized = true then h else heap_init) (size_to_bin c.size) from
              getDL_set_ne _ _ _ _ hce]
            exact hmem
      · intro i
        by_cases hieq : i = size_to_bin b.size
        · subst hieq
          rw [show binGet
              { heap_initialized := (if h.heap_initialized = true then h else heap_init).heap_initialized,
                blocks := l₁ ++ Block.mk b.size false :: l₂,
                bins := (if h.heap_initialized = true then h else heap_init).bins.set (size_to_bin b.size)
                  ((binGet (if h.heap_initialized = true then h else heap_init) (size_to_bin b.size)).erase
                    (chainLen l₁)),
                stale := List.filter
                  (fun a => decide (a < chainLen l₁) || decide (chainLen l₁ + blockFootprint b ≤ a))
                  (if h.heap_initialized = true then h else heap_init).stale } (size_to_bin b.size) =
              (binGet (if h.heap_initialized = true then h else heap_init) (size_to_bin b.size)).erase
                (chainLen l₁) from getDL_set_self _ _ _ hib]
          exact (hInv0.bins_nodup _).erase _
        · rw [show binGet
              { heap_initialized := (if h.heap_initialized = true then h else heap_init).heap_initialized,
                blocks := l₁ ++ Block.mk b.size false :: l₂,
                bins := (if h.heap_initialized = true then h else heap_init).bins.set (size_to_bin b.size)
                  ((binGet (if h.heap_initialized = true then h else heap_init) (size_to_bin b.size)).erase
                    (chainLen l₁)),
                stale := List.filter
                  (fun a => decide (a < chainLen l₁) || decide (chainLen l₁ + blockFootprint b ≤ a))
                  (if h.heap_initialized = true then h else heap_init).stale } i =
              binGet (if h.heap_initialized = true then h else heap_init) i from
            getDL_set_ne _ _ _ _ hieq]
          exact hInv0.bins_nodup i
    · -- split: the block is cut to the aligned request, the remainder is a
      -- new free block inserted into its own bin
      exact inv_my_malloc_split h hInv sz l₁ b l₂ hblocks hfree hsz hff hsmall

/-! ### Evaluation of `my_free` and `coalesce` on a decomposed chain -/

/-- The validated path of `my_free`: in-range pointer to the header of an
allocated chain block.  The block is marked free and coalesced. -/
theorem my_free_ok_eq (h : Heap) (p : ℕ) (l₁ l₂ : List Block) (b : Block)
    (hblocks : h.blocks = l₁ ++ b :: l₂) (hbfree : b.free = false)
    (hp48 : p = chainLen l₁ + sizeofBlock) (hpH : p < HEAP_SIZE) :
    my_free h (some p) = (.ok, coalesce
      { h with blocks := l₁ ++ Block.mk b.size true :: l₂ } l₁.length) := by
  have hge : ¬ HEAP_SIZE ≤ p := by omega
  have hlt : ¬ p < sizeofBlock := by
    rw [hp48]
    simp [sizeofBlock]
  have hsub : p - sizeofBlock = chainLen l₁ := by
    rw [hp48]
    omega
  have hget : h.blocks[l₁.length]? = some b := by
    rw [hblocks]
    exact getElem?_at_len l₁ l₂ b
  have hidx : idxAt h.blocks (p - sizeofBlock) = some l₁.length := by
    rw [hsub]
    apply (idxAt_some_iff _ _ _).mpr
    exact ⟨(List.getElem?_eq_some.mp hget).1, by rw [hblocks]; exact offsetAt_len l₁ _⟩
  have hba : blockAt h.blocks l₁.length = b := blockAt_of_getElem? _ _ _ hget
  rw [my_free]
  rw [if_neg hge, if_neg hlt, hidx]
  have hba2 : blockAt (l₁ ++ b :: l₂) l₁.length = b :=
    blockAt_of_getElem? _ _ _ (getElem?_at_len l₁ l₂ b)
  simp only [hblocks, hba2, hbfree, Bool.false_eq_true, if_false, take_at_len, drop_at_len_succ]

/-- `coalesce` when neither physical neighbor is free: the block is only
inserted into its free list. -/
theorem coalesce_eq_nomerge (h : Heap) (l₁ l₂ : List Block) (c : Block)
    (hblocks : h.blocks = l₁ ++ c :: l₂)
    (hnext : ∀ nb ∈ l₂.head?, nb.free = false)
    (hprev : ∀ pb ∈ l₁.getLast?, pb.free = false) :
    coalesce h l₁.length = insert_free h (chainLen l₁) c.size := by
  have hgetc : h.blocks[l₁.length]? = some c := by
    rw [hblocks]
    exact getElem?_at_len l₁ l₂ c
  have hoffc : offsetAt h.blocks l₁.length = chainLen l₁ := by
    rw [hblocks]
    exact offsetAt_len l₁ _
  have hbac : blockAt h.blocks l₁.length = c := blockAt_of_getElem? _ _ _ hgetc
  have hstep1 : (match h.blocks[l₁.length]?, h.blocks[l₁.length + 1]? with
      | some b, some nb =>
        if nb.free then
          let h' := remove_free h (offsetAt h.blocks (l₁.length + 1)) nb.size
          let merged : Block := ⟨b.size + sizeofBlock + sizeofFooter + nb.size, b.free⟩
          (({ h' with
              blocks := h'.blocks.take l₁.length ++ merged :: h'.blocks.drop (l₁.length + 2)
              stale := offsetAt h.blocks (l₁.length + 1) :: h'.stale } : Heap), l₁.length)
        else (h, l₁.length)
      | _, _ => (h, l₁.length)) = (h, l₁.length) := by
    cases hl₂ : l₂ with
    | nil =>
      have hget1 : h.blocks[l₁.length + 1]? = none := by
        rw [hblocks, hl₂]
        apply List.getElem?_eq_none
        simp
      rw [hgetc, hget1]
    | cons n l₂' =>
      have hget1 : h.blocks[l₁.length + 1]? = some n := by
        rw [hblocks, hl₂]
        simpa using getElem?_at_len_succ l₁ (n :: l₂') c 0
      have hnf : n.free = false := hnext n (by rw [hl₂]; rfl)
      rw [hgetc, hget1]
      simp [hnf]
  rw [coalesce, hstep1]
  simp only
  by_cases h0 : l₁.length = 0
  · rw [if_pos h0]
    simp only
    rw [hbac, hoffc]
  · rw [if_neg h0]
    rcases List.eq_nil_or_concat l₁ with hnil | ⟨l₁', q, hcat⟩
    · rw [hnil] at h0
      exact absurd rfl h0
    · have hql : l₁ = l₁' ++ [q] := by simpa [List.concat_eq_append] using hcat
      have hqf : q.free = false := hprev q (by rw [hql]; exact List.getLast?_concat l₁')
      have hassoc : h.blocks = l₁' ++ q :: (c :: l₂) := by
        rw [hblocks, hql]
        simp
      have hgetq : h.blocks[l₁.length - 1]? = some q := by
        have hl : l₁.length - 1 = l₁'.length := by rw [hql]; simp
        rw [hl, hassoc]
        exact getElem?_at_len l₁' _ q
      rw [hgetq, hgetc]
      simp only [hqf, Bool.false_eq_true, if_false]
      rw [hbac, hoffc]

/-- `coalesce` when only the physical successor is free: the successor
leaves its bin and is absorbed; its header offset goes stale. -/
theorem coalesce_eq_fwd (h : Heap) (l₁ l₂' : List Block) (c n : Block)
    (hblocks : h.blocks = l₁ ++ c :: n :: l₂')
    (hnfree : n.free = true)
    (hprev : ∀ pb ∈ l₁.getLast?, pb.free = false) :
    coalesce h l₁.length = insert_free
      { h with
        blocks := l₁ ++ Block.mk (c.size + sizeofBlock + sizeofFooter + n.size) c.free :: l₂'
        bins := (remove_free h (chainLen l₁ + blockFootprint c) n.size).bins
        stale := (chainLen l₁ + blockFootprint c) :: h.stale }
      (chainLen l₁) (c.size + sizeofBlock + sizeofFooter + n.size) := by
  have hgetc : h.blocks[l₁.length]? = some c := by
    rw [hblocks]
    exact getElem?_two_mid_left l₁ l₂' c n
  have hgetn : h.blocks[l₁.length + 1]? = some n := by
    rw [hblocks]
    exact getElem?_two_mid_right l₁ l₂' c n
  have hoffn : offsetAt h.blocks (l₁.length + 1) = chainLen l₁ + blockFootprint c := by
    rw [hblocks]
    exact offsetAt_two_mid_right l₁ l₂' c n
  have htake : h.blocks.take l₁.length = l₁ := by
    rw [hblocks]
    exact take_at_len l₁ _ c
  have hdrop : h.blocks.drop (l₁.length + 2) = l₂' := by
    rw [hblocks, two_mid_assoc]
    have hl : l₁.length + 2 = (l₁ ++ [c, n]).length := by simp
    rw [hl]
    exact List.drop_left _ _
  rw [coalesce]
  rw [hgetc, hgetn]
  simp only [hnfree, if_true, remove_free_blocks, remove_free_stale, remove_free_flag,
    hoffn, htake]
  rw [hdrop]
  -- the backward step does not fire
  set hmid : Heap :=
    { heap_initialized := h.heap_initialized
      blocks := l₁ ++ Block.mk (c.size + sizeofBlock + sizeofFooter + n.size) c.free :: l₂'
      bins := (remove_free h (chainLen l₁ + blockFootprint c) n.size).bins
      stale := (chainLen l₁ + blockFootprint c) :: h.stale } with hhmid
  have hgetM : hmid.blocks[l₁.length]? =
      some (Block.mk (c.size + sizeofBlock + sizeofFooter + n.size) c.free) := by
    rw [hhmid]
    exact getElem?_at_len l₁ _ _
  have hbaM : blockAt hmid.blocks l₁.length =
      Block.mk (c.size + sizeofBlock + sizeofFooter + n.size) c.free :=
    blockAt_of_getElem? _ _ _ hgetM
  have hoffM : offsetAt hmid.blocks l₁.length = chainLen l₁ := by
    rw [hhmid]
    exact offsetAt_len l₁ _
  by_cases h0 : l₁.length = 0
  · rw [if_pos h0]
    simp only
    rw [hbaM, hoffM]
  · rw [if_neg h0]
    rcases List.eq_nil_or_concat l₁ with hnil | ⟨l₁', q, hcat⟩
    · rw [hnil] at h0
      exact absurd rfl h0
    · have hql : l₁ = l₁' ++ [q] := by simpa [List.concat_eq_append] using hcat
      have hqf : q.free = false := hprev q (by rw [hql]; exact List.getLast?_concat l₁')
      have hgetq : hmid.blocks[l₁.length - 1]? = some q := by
        have hassoc : hmid.blocks = l₁' ++ q ::
            (Block.mk (c.size + sizeofBlock + sizeofFooter + n.size) c.free :: l₂') := by
          rw [hhmid]
          simp only
          rw [hql]
          simp
        have hl : l₁.length - 1 = l₁'.length := by rw [hql]; simp
        rw [hl, hassoc]
        exact getElem?_at_len l₁' _ q
      rw [hgetq, hgetM]
      simp only [hqf, Bool.false_eq_true, if_false]
      rw [hbaM, hoffM]

/-- `coalesce` when only the physical predecessor is free: the predecessor
leaves its bin and absorbs the block; the block's header offset goes
stale. -/
theorem coalesce_eq_bwd (h : Heap) (l₁' l₂ : List Block) (q c : Block)
    (hblocks : h.blocks = l₁' ++ q :: c :: l₂)
    (hqfree : q.free = true)
    (hnext : ∀ nb ∈ l₂.head?, nb.free = false) :
    coalesce h (l₁'.length + 1) = insert_free
      { h with
        blocks := l₁' ++ Block.mk (q.size + sizeofBlock + sizeofFooter + c.size) q.free :: l₂
        bins := (remove_free h (chainLen l₁') q.size).bins
        stale := (chainLen l₁' + blockFootprint q) :: h.stale }
      (chainLen l₁') (q.size + sizeofBlock + sizeofFooter + c.size) := by
  have hgetc : h.blocks[l₁'.length + 1]? = some c := by
    rw [hblocks]
    exact getElem?_two_mid_right l₁' l₂ q c
  have hgetq : h.blocks[l₁'.length]? = some q := by
    rw [hblocks]
    exact getElem?_two_mid_left l₁' l₂ q c
  have hoffq : offsetAt h.blocks l₁'.length = chainLen l₁' := by
    rw [hblocks]
    exact offsetAt_len l₁' _
  have hoffc : offsetAt h.blocks (l₁'.length + 1) = chainLen l₁' + blockFootprint q := by
    rw [hblocks]
    exact offsetAt_two_mid_right l₁' l₂ q c
  have htake : h.blocks.take l₁'.length = l₁' := by
    rw [hblocks]
    exact take_at_len l₁' _ q
  have hdrop : h.blocks.drop (l₁'.length + 2) = l₂ := by
    rw [hblocks, two_mid_assoc]
    have hl : l₁'.length + 2 = (l₁' ++ [q, c]).length := by simp
    rw [hl]
    exact List.drop_left _ _
  have hstep1 : (match h.blocks[l₁'.length + 1]?, h.blocks[l₁'.length + 1 + 1]? with
      | some b, some nb =>
        if nb.free then
          let h' := remove_free h (offsetAt h.blocks (l₁'.length + 1 + 1)) nb.size
          let merged : Block := ⟨b.size + sizeofBlock + sizeofFooter + nb.size, b.free⟩
          (({ h' with
              blocks := h'.blocks.take (l₁'.length + 1) ++
                merged :: h'.blocks.drop (l₁'.length + 1 + 2)
              stale := offsetAt h.blocks (l₁'.length + 1 + 1) :: h'.stale } : Heap),
            l₁'.length + 1)
        else (h, l₁'.length + 1)
      | _, _ => (h, l₁'.length + 1)) = (h, l₁'.length + 1) := by
    cases hl₂ : l₂ with
    | nil =>
      have hget1 : h.blocks[l₁'.length + 1 + 1]? = none := by
        rw [hblocks, hl₂]
        apply List.getElem?_eq_none
        simp
      rw [hgetc, hget1]
    | cons n l₂'' =>
      have hget1 : h.blocks[l₁'.length + 1 + 1]? = some n := by
        rw [hblocks, hl₂]
        have h2 := getElem?_two_mid_past l₁' (n :: l₂'') q c 0
        rw [show l₁'.length + 1 + 1 = l₁'.length + 2 + 0 from by omega, h2]
        exact List.getElem?_cons_zero
      have hnf : n.free = false := hnext n (by rw [hl₂]; rfl)
      rw [hgetc, hget1]
      simp [hnf]
  rw [coalesce, hstep1]
  simp only
  rw [if_neg (by omega : ¬ l₁'.length + 1 = 0)]
  rw [show l₁'.length + 1 - 1 = l₁'.length from by omega]
  rw [hgetq, hgetc]
  have hbaq : blockAt h.blocks l₁'.length = q := blockAt_of_getElem? _ _ _ hgetq
  simp only [hqfree, if_true, remove_free_blocks, remove_free_stale, remove_free_flag,
    hoffq, hoffc, htake]
  rw [hdrop]
  have hgetM : (l₁' ++ Block.mk (q.size + sizeofBlock + sizeofFooter + c.size) true ::
      l₂)[l₁'.length]? = some (Block.mk (q.size + sizeofBlock + sizeofFooter + c.size) true) :=
    getElem?_at_len l₁' _ _
  have hbaM : blockAt (l₁' ++ Block.mk (q.size + sizeofBlock + sizeofFooter + c.size) true ::
      l₂) l₁'.length = Block.mk (q.size + sizeofBlock + sizeofFooter + c.size) true :=
    blockAt_of_getElem? _ _ _ hgetM
  rw [hbaM, offsetAt_len]

/-- `coalesce` when both physical neighbors are free: the successor is
absorbed first, then the predecessor absorbs the extended block; both
absorbed header offsets go stale, the predecessor's pushed last. -/
theorem coalesce_eq_both (h : Heap) (l₁' l₂' : List Block) (q c n : Block)
    (hblocks : h.blocks = l₁' ++ q :: c :: n :: l₂')
    (hqfree : q.free = true) (hnfree : n.free = true) :
    coalesce h (l₁'.length + 1) = insert_free
      { h with
        blocks := l₁' ++ Block.mk (q.size + sizeofBlock + sizeofFooter +
          (c.size + sizeofBlock + sizeofFooter + n.size)) q.free :: l₂'
        bins := (remove_free { h with bins := (remove_free h
            (chainLen l₁' + blockFootprint q + blockFootprint c) n.size).bins }
          (chainLen l₁') q.size).bins
        stale := (chainLen l₁' + blockFootprint q) ::
          (chainLen l₁' + blockFootprint q + blockFootprint c) :: h.stale }
      (chainLen l₁') (q.size + sizeofBlock + sizeofFooter +
        (c.size + sizeofBlock + sizeofFooter + n.size)) := by
  have hassoc : h.blocks = (l₁' ++ [q]) ++ c :: n :: l₂' := by
    rw [hblocks]
    simp
  have hlen : (l₁' ++ [q]).length = l₁'.length + 1 := by simp
  have hgetc : h.blocks[l₁'.length + 1]? = some c := by
    rw [hassoc, ← hlen]
    exact getElem?_two_mid_left _ l₂' c n
  have hgetn : h.blocks[l₁'.length + 1 + 1]? = some n := by
    rw [hassoc, ← hlen]
    exact getElem?_two_mid_right _ l₂' c n
  have hoffn : offsetAt h.blocks (l₁'.length + 1 + 1) =
      chainLen l₁' + blockFootprint q + blockFootprint c := by
    rw [hblocks]
    have := offsetAt_two_mid_past l₁' (n :: l₂') q c 0
    simpa [offsetAt_zero] using this
  have htake : h.blocks.take (l₁'.length + 1) = l₁' ++ [q] := by
    rw [hassoc, ← hlen]
    exact take_at_len _ _ c
  have hdrop : h.blocks.drop (l₁'.length + 1 + 2) = l₂' := by
    rw [hblocks]
    have hassoc2 : l₁' ++ q :: c :: n :: l₂' = (l₁' ++ [q, c]) ++ n :: l₂' := by simp
    rw [hassoc2]
    have hl : l₁'.length + 1 + 2 = (l₁' ++ [q, c]).length + 1 := by simp
    rw [hl]
    exact drop_at_len_succ _ _ n
  rw [coalesce]
  rw [hgetc, hgetn]
  simp only [hnfree, if_true, remove_free_blocks, remove_free_stale, remove_free_flag,
    hoffn, htake]
  rw [hdrop]
  -- state after the forward merge
  set M1 : Block := Block.mk (c.size + sizeofBlock + sizeofFooter + n.size) c.free with hM1
  set hmid : Heap :=
    { heap_initialized := h.heap_initialized
      blocks := (l₁' ++ [q]) ++ M1 :: l₂'
      bins := (remove_free h (chainLen l₁' + blockFootprint q + blockFootprint c) n.size).bins
      stale := (chainLen l₁' + blockFootprint q + blockFootprint c) :: h.stale } with hhmid
  have hmid_blocks : hmid.blocks = l₁' ++ q :: M1 :: l₂' := by
    rw [hhmid]
    simp
  rw [if_neg (by omega : ¬ l₁'.length + 1 = 0)]
  rw [show l₁'.length + 1 - 1 = l₁'.length from by omega]
  have hgetq2 : hmid.blocks[l₁'.length]? = some q := by
    rw [hmid_blocks]
    exact getElem?_two_mid_left l₁' l₂' q M1
  have hgetM1 : hmid.blocks[l₁'.length + 1]? = some M1 := by
    rw [hmid_blocks]
    exact getElem?_two_mid_right l₁' l₂' q M1
  have hoffq2 : offsetAt hmid.blocks l₁'.length = chainLen l₁' := by
    rw [hmid_blocks]
    exact offsetAt_len l₁' _
  have hoffM1 : offsetAt hmid.blocks (l₁'.length + 1) = chainLen l₁' + blockFootprint q := by
    rw [hmid_blocks]
    exact offsetAt_two_mid_right l₁' l₂' q M1
  have htake2 : hmid.blocks.take l₁'.length = l₁' := by
    rw [hmid_blocks]
    exact take_at_len l₁' _ q
  have hdrop2 : hmid.blocks.drop (l₁'.length + 2) = l₂' := by
    rw [hmid_blocks]
    have hassoc2 : l₁' ++ q :: M1 :: l₂' = (l₁' ++ [q, M1]) ++ l₂' := by simp
    rw [hassoc2]
    have hl : l₁'.length + 2 = (l₁' ++ [q, M1]).length := by simp
    rw [hl]
    exact List.drop_left _ _
  rw [hgetq2, hgetM1]
  simp only [hqfree, if_true, remove_free_blocks, remove_free_stale, remove_free_flag,
    hoffq2, hoffM1, htake2]
  rw [hdrop2]
  have hgetM2 : (l₁' ++ Block.mk (q.size + sizeofBlock + sizeofFooter + M1.size) true ::
      l₂')[l₁'.length]? = some (Block.mk (q.size + sizeofBlock + sizeofFooter + M1.size) true) :=
    getElem?_at_len l₁' _ _
  have hbaM2 : blockAt (l₁' ++ Block.mk (q.size + sizeofBlock + sizeofFooter + M1.size) true ::
      l₂') l₁'.length = Block.mk (q.size + sizeofBlock + sizeofFooter + M1.size) true :=
    blockAt_of_getElem? _ _ _ hgetM2
  rw [hbaM2, offsetAt_len]
  simp [hhmid, hM1, remove_free, insert_free, binGet]

/-! ### Effect of `remove_free` on well-formed bins -/

/-- Unlinking the block at index `j` from its free list: the surviving
entries are exactly the old entries other than the block's offset, and the
per-bin lists stay duplicate-free.  Soundness of the input bins pins each
entry to a unique chain block, which makes the erasure exact. -/
theorem binGet_remove_spec (X : Heap)
    (hsound : ∀ i : ℕ, ∀ off' ∈ binGet X i, ∃ j b, X.blocks[j]? = some b ∧
       offsetAt X.blocks j = off' ∧ b.free = true ∧ size_to_bin b.size = i)
    (hnd : ∀ i : ℕ, (binGet X i).Nodup) (hlen : X.bins.length = NUM_BINS)
    (j : ℕ) (bj : Block) (hj : X.blocks[j]? = some bj) :
    (∀ i : ℕ, ∀ off' ∈ binGet (remove_free X (offsetAt X.blocks j) bj.size) i,
      off' ∈ binGet X i ∧ off' ≠ offsetAt X.blocks j) ∧
    (∀ i off' : ℕ, off' ∈ binGet X i → off' ≠ offsetAt X.blocks j →
      off' ∈ binGet (remove_free X (offsetAt X.blocks j) bj.size) i) ∧
    (∀ i : ℕ, (binGet (remove_free X (offsetAt X.blocks j) bj.size) i).Nodup) := by
  have hjlen : j < X.blocks.length := (List.getElem?_eq_some.mp hj).1
  have hbins := binGet_remove_free X (offsetAt X.blocks j) bj.size
  refine ⟨?_, ?_, ?_⟩
  · intro i off' hmem
    rw [hbins i hlen] at hmem
    by_cases hieq : i = size_to_bin bj.size
    · rw [if_pos hieq] at hmem
      rcases (hnd i).mem_erase_iff.mp hmem with ⟨hne, hm⟩
      exact ⟨hm, hne⟩
    · rw [if_neg hieq] at hmem
      refine ⟨hmem, ?_⟩
      intro habs
      rcases hsound i off' hmem with ⟨j'', b'', hj'', hoff'', _, hclass''⟩
      have hj''len : j'' < X.blocks.length := (List.getElem?_eq_some.mp hj'').1
      have : j'' = j := offsetAt_inj _ j'' j hj''len hjlen (by rw [hoff'', habs])
      rw [this, hj] at hj''
      have hbb : b'' = bj := by
        injection hj'' with hh
        exact hh.symm
      rw [hbb] at hclass''
      exact hieq hclass''.symm
  · intro i off' hmem hne
    rw [hbins i hlen]
    by_cases hieq : i = size_to_bin bj.size
    · rw [if_pos hieq]
      exact (hnd i).mem_erase_iff.mpr ⟨hne, hmem⟩
    · rw [if_neg hieq]
      exact hmem
  · intro i
    rw [hbins i hlen]
    by_cases hieq : i = size_to_bin bj.size
    · rw [if_pos hieq]
      exact (hnd i).erase _
    · rw [if_neg hieq]
      exact hnd i

/-! ### A generic invariant lemma for the result of a coalescing merge -/

/-- The result of marking free and coalescing: the consumed segment `mid`
of the chain is replaced by one free block `M` with the same total
footprint, the bins are rebuilt so that their entries are the old entries
avoiding `mid`'s offsets plus `M`'s offset, and the surviving blocks keep
their offsets.  All allocator invariants follow. -/
theorem inv_merge (h : Heap) (hInv : Inv h)
    (L₁ mid L₂ : List Block) (M : Block)
    (hblocks : h.blocks = L₁ ++ mid ++ L₂)
    (hmid : mid ≠ [])
    (hfp : blockFootprint M = chainLen mid)
    (hMfree : M.free = true)
    (hM8 : 8 ∣ M.size)
    (hL1 : ∀ x ∈ L₁.getLast?, x.free = false)
    (hL2 : ∀ y ∈ L₂.head?, y.free = false)
    (bins' : List (List ℕ)) (stale' : List ℕ)
    (hbins'len : bins'.length = NUM_BINS)
    (hsub : ∀ i : ℕ, ∀ off' ∈ bins'.getD i [],
       (off' = chainLen L₁ ∧ i = size_to_bin M.size) ∨
       (off' ∈ binGet h i ∧ ∀ k, k < mid.length → offsetAt h.blocks (L₁.length + k) ≠ off'))
    (hsup : ∀ i off' : ℕ, off' ∈ binGet h i →
       (∀ k, k < mid.length → offsetAt h.blocks (L₁.length + k) ≠ off') →
       off' ∈ bins'.getD i [])
    (hMin : chainLen L₁ ∈ bins'.getD (size_to_bin M.size) [])
    (hnodup : ∀ i : ℕ, (bins'.getD i []).Nodup) :
    Inv { heap_initialized := h.heap_initialized, blocks := L₁ ++ M :: L₂,
          bins := bins', stale := stale' } := by
  have hlenold : h.blocks.length = L₁.length + mid.length + L₂.length := by
    rw [hblocks]
    simp
    omega
  -- offsets and blocks of positions outside `mid` agree between the chains
  have htransf : ∀ j' : ℕ, ∀ b' : Block, h.blocks[j']? = some b' →
      (j' < L₁.length ∨ L₁.length + mid.length ≤ j') →
      ∃ k, (L₁ ++ M :: L₂)[k]? = some b' ∧
        offsetAt (L₁ ++ M :: L₂) k = offsetAt h.blocks j' := by
    intro j' b' hj' hcase
    rcases hcase with hlt | hge
    · refine ⟨j', ?_, ?_⟩
      · rw [List.getElem?_append_left hlt]
        rw [hblocks, List.getElem?_append_left (by simp; omega)] at hj'
        rw [List.getElem?_append_left hlt] at hj'
        exact hj'
      · rw [offsetAt_front _ _ _ (Nat.le_of_lt hlt), hblocks, List.append_assoc,
          offsetAt_front _ _ _ (Nat.le_of_lt hlt)]
    · have hm : j' = L₁.length + mid.length + (j' - L₁.length - mid.length) := by omega
      refine ⟨L₁.length + 1 + (j' - L₁.length - mid.length), ?_, ?_⟩
      · rw [getElem?_at_len_succ]
        rw [hblocks] at hj'
        conv at hj' => rw [hm]
        rw [show L₁.length + mid.length + (j' - L₁.length - mid.length) =
          (L₁ ++ mid).length + (j' - L₁.length - mid.length) from by simp] at hj'
        rw [List.getElem?_append_right (by omega)] at hj'
        rw [show (L₁ ++ mid).length + (j' - L₁.length - mid.length) - (L₁ ++ mid).length =
          j' - L₁.length - mid.length from by omega] at hj'
        exact hj'
      · rw [offsetAt_one_mid_past, hblocks]
        conv_rhs => rw [hm]
        rw [show L₁.length + mid.length + (j' - L₁.length - mid.length) =
          (L₁ ++ mid).length + (j' - L₁.length - mid.length) from by simp]
        rw [offsetAt_back, chainLen_append, hfp]
  -- positions of the new chain other than the merged block come from the
  -- old chain, outside `mid`
  have hrev : ∀ k : ℕ, ∀ c : Block, (L₁ ++ M :: L₂)[k]? = some c → k ≠ L₁.length →
      ∃ j', h.blocks[j']? = some c ∧
        offsetAt h.blocks j' = offsetAt (L₁ ++ M :: L₂) k ∧
        (j' < L₁.length ∨ L₁.length + mid.length ≤ j') := by
    intro k c hk hkne
    rcases Nat.lt_or_ge k L₁.length with hlt | hge
    · refine ⟨k, ?_, ?_, Or.inl hlt⟩
      · rw [hblocks, List.getElem?_append_left (by simp; omega),
          List.getElem?_append_left hlt]
        rw [List.getElem?_append_left hlt] at hk
        exact hk
      · rw [hblocks, List.append_assoc, offsetAt_front _ _ _ (Nat.le_of_lt hlt),
          offsetAt_front _ _ _ (Nat.le_of_lt hlt)]
    · have hge1 : L₁.length + 1 ≤ k := by omega
      have hm : k = L₁.length + 1 + (k - L₁.length - 1) := by omega
      refine ⟨L₁.length + mid.length + (k - L₁.length - 1), ?_, ?_, Or.inr (by omega)⟩
      · conv at hk => rw [hm]
        rw [getElem?_at_len_succ] at hk
        rw [hblocks, show L₁.length + mid.length + (k - L₁.length - 1) =
          (L₁ ++ mid).length + (k - L₁.length - 1) from by simp,
          List.getElem?_append_right (by omega),
          show (L₁ ++ mid).length + (k - L₁.length - 1) - (L₁ ++ mid).length =
            k - L₁.length - 1 from by omega]
        exact hk
      · conv_rhs => rw [hm]
        rw [offsetAt_one_mid_past, hblocks,
          show L₁.length + mid.length + (k - L₁.length - 1) =
            (L₁ ++ mid).length + (k - L₁.length - 1) from by simp,
          offsetAt_back, chainLen_append, hfp]
  have hofL : offsetAt (L₁ ++ M :: L₂) L₁.length = chainLen L₁ := offsetAt_len L₁ _
  have hmidlt : ∀ k, k < mid.length → L₁.length + k < h.blocks.length := by
    intro k hk
    omega
  refine ⟨?_, ?_, ?_, ?_, ?_, ?_, ?_, ?_⟩
  · intro hfl
    have hempty := hInv.init_empty hfl
    exfalso
    have : h.blocks = [] := by rw [hempty]; rfl
    rw [hblocks] at this
    rcases List.append_eq_nil.mp this with ⟨h1, h2⟩
    rcases List.append_eq_nil.mp h1 with ⟨_, h3⟩
    exact hmid h3
  · have h0 := hInv.noadj
    rw [hblocks] at h0
    rw [NoAdjFree, List.chain'_append] at h0
    rcases h0 with ⟨hc1, hc2, _⟩
    rw [List.chain'_append] at hc1
    exact noadj_assemble_one L₁ L₂ M hc1.1 hc2
      (fun x hx => Or.inl (hL1 x hx)) (fun y hy => Or.inr (hL2 y hy))
  · intro c hc
    rcases List.mem_append.mp hc with hcl | hcr
    · refine hInv.sizes c ?_
      rw [hblocks, List.append_assoc]
      exact List.mem_append.mpr (Or.inl hcl)
    · rcases List.mem_cons.mp hcr with hce | hcl₂
      · rw [hce]
        exact hM8
      · exact hInv.sizes c (by rw [hblocks]; simp [hcl₂])
  · intro hfl
    have := hInv.total hfl
    rw [hblocks] at this
    rw [chainLen_append, chainLen_cons, ← this, chainLen_append, chainLen_append, hfp]
    omega
  · exact hbins'len
  · intro i off' hoff'
    rcases hsub i off' hoff' with ⟨hoe, hie⟩ | ⟨hold, havoid⟩
    · exact ⟨L₁.length, M, getElem?_at_len L₁ L₂ M, by rw [hofL, hoe], hMfree, hie.symm⟩
    · rcases hInv.bins_sound i off' hold with ⟨j', b', hj', hoffj', hfree', hclass'⟩
      have hj'len : j' < h.blocks.length := (List.getElem?_eq_some.mp hj').1
      have hout : j' < L₁.length ∨ L₁.length + mid.length ≤ j' := by
        by_contra hin
        push_neg at hin
        have hk : j' - L₁.length < mid.length := by omega
        have := havoid (j' - L₁.length) hk
        rw [show L₁.length + (j' - L₁.length) = j' from by omega] at this
        exact this hoffj'
      rcases htransf j' b' hj' hout with ⟨k, hk, hoffk⟩
      exact ⟨k, b', hk, by rw [hoffk]; exact hoffj', hfree', hclass'⟩
  · intro k c hk hc
    by_cases hke : k = L₁.length
    · subst hke
      rw [getElem?_at_len] at hk
      have hce : c = M := by
        injection hk with hh
        exact hh.symm
      rw [hce, hofL]
      exact hMin
    · rcases hrev k c hk hke with ⟨j', hj', hoffeq, hout⟩
      have hmem := hInv.bins_complete j' c hj' hc
      have hj'len : j' < h.blocks.length := (List.getElem?_eq_some.mp hj').1
      have havoid : ∀ kk, kk < mid.length →
          offsetAt h.blocks (L₁.length + kk) ≠ offsetAt h.blocks j' := by
        intro kk hkk habs
        have heq := offsetAt_inj _ _ _ (hmidlt kk hkk) hj'len habs
        omega
      have := hsup (size_to_bin c.size) (offsetAt h.blocks j') hmem havoid
      rw [hoffeq] at this
      exact this
  · exact hnodup

/-- The offset of an allocated chain block appears in no free list. -/
theorem not_entry_at (h : Heap) (hInv : Inv h) (j : ℕ) (b : Block)
    (hj : h.blocks[j]? = some b) (hbfree : b.free = false) :
    ∀ i : ℕ, offsetAt h.blocks j ∉ binGet h i := by
  intro i hmem
  rcases hInv.bins_sound i _ hmem with ⟨j', b', hj', hoff', hfree', _⟩
  have hj'len : j' < h.blocks.length := (List.getElem?_eq_some.mp hj').1
  have hjlen : j < h.blocks.length := (List.getElem?_eq_some.mp hj).1
  have : j' = j := offsetAt_inj _ j' j hj'len hjlen hoff'
  rw [this, hj] at hj'
  have hbb : b' = b := by
    injection hj' with hh
    exact hh.symm
  rw [hbb, hbfree] at hfree'
  cases hfree'

/-- Case analysis of `my_free`: every branch either leaves the state
unchanged or marks an allocated block free and coalesces it. -/
theorem my_free_snd_cases (h : Heap) (p : Option ℕ) :
    (my_free h p).2 = h ∨ ∃ q l₁ l₂ b, p = some q ∧ h.blocks = l₁ ++ b :: l₂ ∧
      b.free = false ∧ q = chainLen l₁ + sizeofBlock ∧ q < HEAP_SIZE ∧
      (my_free h p).2 =
        coalesce { h with blocks := l₁ ++ Block.mk b.size true :: l₂ } l₁.length := by
  cases p with
  | none => exact Or.inl rfl
  | some q =>
    by_cases hge : HEAP_SIZE ≤ q
    · left
      rw [my_free, if_pos hge]
    · by_cases hlt : q < sizeofBlock
      · left
        rw [my_free, if_neg hge, if_pos hlt]
      · cases hidx : idxAt h.blocks (q - sizeofBlock) with
        | none =>
          left
          rw [my_free, if_neg hge, if_neg hlt, hidx]
          by_cases hst : (q - sizeofBlock) ∈ h.stale
          · simp [hst]
          · simp [hst]
        | some i =>
          rcases (idxAt_some_iff _ _ _).mp hidx with ⟨hilen, hioff⟩
          have hget : ∃ b, h.blocks[i]? = some b := ⟨h.blocks[i],
            List.getElem?_eq_some.mpr ⟨hilen, rfl⟩⟩
          rcases hget with ⟨b, hget⟩
          by_cases hbf : b.free = true
          · left
            rw [my_free, if_neg hge, if_neg hlt, hidx]
            simp [blockAt_of_getElem? _ _ _ hget, hbf]
          · right
            rcases decomp_of_getElem? _ i b hget with ⟨l₁, l₂, hblocks, hlen⟩
            have hoffc : offsetAt h.blocks i = chainLen l₁ := by
              rw [hblocks, ← hlen, offsetAt_len]
            have hq : q = chainLen l₁ + sizeofBlock := by
              rw [← hoffc, hioff]
              simp only [sizeofBlock] at hlt ⊢
              omega
            refine ⟨q, l₁, l₂, b, rfl, hblocks, by simpa using hbf, hq, by omega, ?_⟩
            rw [my_free_ok_eq h q l₁ l₂ b hblocks (by simpa using hbf) hq (by omega)]

/-! ### `my_free` preserves the invariants -/

set_option maxHeartbeats 1000000 in
theorem inv_my_free (h : Heap) (hInv : Inv h) (p : Option ℕ) : Inv (my_free h p).2 := by
  rcases my_free_snd_cases h p with heq | ⟨q, l₁, l₂, b, hp, hblocks, hbfree, hq, hqH, heq⟩
  · rw [heq]
    exact hInv
  rw [heq]
  have hlen1 : l₁.length < h.blocks.length := by
    rw [hblocks]
    simp
  have hgetb : h.blocks[l₁.length]? = some b := by
    rw [hblocks]
    exact getElem?_at_len l₁ l₂ b
  have hoffb : offsetAt h.blocks l₁.length = chainLen l₁ := by
    rw [hblocks]
    exact offsetAt_len l₁ _
  have hbsize8 : 8 ∣ b.size := hInv.sizes b (by rw [hblocks]; simp)
  have hb_not_entry : ∀ i : ℕ, chainLen l₁ ∉ binGet h i := by
    have hne := not_entry_at h hInv l₁.length b hgetb hbfree
    rw [hoffb] at hne
    exact hne
  have hNext : (∀ nb ∈ l₂.head?, nb.free = false) ∨
      ∃ n l₂', l₂ = n :: l₂' ∧ n.free = true := by
    cases l₂ with
    | nil =>
      left
      intro nb hnb
      cases hnb
    | cons n l₂' =>
      by_cases hn : n.free = true
      · exact Or.inr ⟨n, l₂', rfl, hn⟩
      · left
        intro nb hnb
        cases hnb
        simpa using hn
  have hPrev : (∀ pb ∈ l₁.getLast?, pb.free = false) ∨
      ∃ l₁' q', l₁ = l₁' ++ [q'] ∧ q'.free = true := by
    rcases List.eq_nil_or_concat l₁ with hnil | ⟨l₁', q', hcat⟩
    · left
      rw [hnil]
      intro pb hpb
      cases hpb
    · have hql : l₁ = l₁' ++ [q'] := by simpa [List.concat_eq_append] using hcat
      by_cases hq' : q'.free = true
      · exact Or.inr ⟨l₁', q', hql, hq'⟩
      · left
        rw [hql]
        intro pb hpb
        rw [List.getLast?_concat] at hpb
        cases hpb
        simpa using hq'
  rcases hNext with hnextF | ⟨n, l₂', hl₂, hnfree⟩
  · rcases hPrev with hprevF | ⟨l₁', q', hl₁, hq'free⟩
    · -- no neighbor is free: the block is only reinserted
      rw [coalesce_eq_nomerge _ l₁ l₂ (Block.mk b.size true) rfl hnextF hprevF]
      show Inv (⟨h.heap_initialized, l₁ ++ Block.mk b.size true :: l₂,
        h.bins.set (size_to_bin b.size) (chainLen l₁ :: binGet h (size_to_bin b.size)),
        h.stale⟩ : Heap)
      have hib : size_to_bin b.size < h.bins.length := by
        rw [hInv.binlen]
        exact size_to_bin_lt b.size
      refine inv_merge h hInv l₁ [b] l₂ (Block.mk b.size true)
        (by rw [hblocks]; simp) (by simp) (by rw [chainLen_singleton]; rfl) rfl hbsize8
        hprevF hnextF _ _ (by rw [List.length_set]; exact hInv.binlen) ?_ ?_ ?_ ?_
      · intro i off' hoff'
        by_cases hieq : i = size_to_bin b.size
        · subst hieq
          rw [getDL_set_self _ _ _ hib] at hoff'
          rcases List.mem_cons.mp hoff' with hhd | htl
          · exact Or.inl ⟨hhd, rfl⟩
          · refine Or.inr ⟨htl, ?_⟩
            intro k hk
            have hk0 : k = 0 := by simpa using hk
            subst hk0
            rw [Nat.add_zero, hoffb]
            intro habs
            exact hb_not_entry _ (habs ▸ htl)
        · rw [getDL_set_ne _ _ _ _ hieq] at hoff'
          refine Or.inr ⟨hoff', ?_⟩
          intro k hk
          have hk0 : k = 0 := by simpa using hk
          subst hk0
          rw [Nat.add_zero, hoffb]
          intro habs
          exact hb_not_entry _ (habs ▸ hoff')
      · intro i off' hmem _
        by_cases hieq : i = size_to_bin b.size
        · subst hieq
          rw [getDL_set_self _ _ _ hib]
          exact List.mem_cons_of_mem _ hmem
        · rw [getDL_set_ne _ _ _ _ hieq]
          exact hmem
      · rw [show size_to_bin (Block.mk b.size true).size = size_to_bin b.size from rfl,
          getDL_set_self _ _ _ hib]
        exact List.mem_cons_self _ _
      · intro i
        by_cases hieq : i = size_to_bin b.size
        · subst hieq
          rw [getDL_set_self _ _ _ hib]
          exact List.nodup_cons.mpr ⟨hb_not_entry _, hInv.bins_nodup _⟩
        · rw [getDL_set_ne _ _ _ _ hieq]
          exact hInv.bins_nodup i
    · -- only the predecessor is free
      subst hl₁
      have hblocks3 : h.blocks = l₁' ++ q' :: b :: l₂ := by
        rw [hblocks]
        simp
      have hgetq : h.blocks[l₁'.length]? = some q' := by
        rw [hblocks3]
        exact getElem?_two_mid_left l₁' l₂ q' b
      have hoffq : offsetAt h.blocks l₁'.length = chainLen l₁' := by
        rw [hblocks3]
        exact offsetAt_len l₁' _
      have hgetb2 : h.blocks[l₁'.length + 1]? = some b := by
        rw [hblocks3]
        exact getElem?_two_mid_right l₁' l₂ q' b
      have hoffb2 : offsetAt h.blocks (l₁'.length + 1) = chainLen l₁' + blockFootprint q' := by
        rw [hblocks3]
        exact offsetAt_two_mid_right l₁' l₂ q' b
      have hq8 : 8 ∣ q'.size := hInv.sizes q' (by rw [hblocks3]; simp)
      have hspec := binGet_remove_spec h hInv.bins_sound hInv.bins_nodup hInv.binlen
        l₁'.length q' hgetq
      rw [hoffq] at hspec
      rcases hspec with ⟨hspec_sub, hspec_sup, hspec_nd⟩
      have hb2_not_entry : ∀ i : ℕ, chainLen l₁' + blockFootprint q' ∉ binGet h i := by
        have hne := not_entry_at h hInv (l₁'.length + 1) b hgetb2 hbfree
        rw [hoffb2] at hne
        exact hne
      have hL1last : ∀ x ∈ l₁'.getLast?, x.free = false := by
        intro x hx
        have h0 := hInv.noadj
        rw [hblocks3] at h0
        rcases noadj_decomp l₁' (b :: l₂) q' h0 with ⟨_, _, hedge, _⟩
        rcases hedge x hx with hxf | hqf
        · exact hxf
        · rw [hq'free] at hqf
          cases hqf
      rw [show (l₁' ++ [q']).length = l₁'.length + 1 from by simp]
      rw [coalesce_eq_bwd _ l₁' l₂ q' (Block.mk b.size true) (by simp) hq'free hnextF]
      show Inv (⟨h.heap_initialized,
        l₁' ++ Block.mk (q'.size + sizeofBlock + sizeofFooter + b.size) q'.free :: l₂,
        (remove_free h (chainLen l₁') q'.size).bins.set
          (size_to_bin (q'.size + sizeofBlock + sizeofFooter + b.size))
          (chainLen l₁' :: binGet (remove_free h (chainLen l₁') q'.size)
            (size_to_bin (q'.size + sizeofBlock + sizeofFooter + b.size))),
        (chainLen l₁' + blockFootprint q') :: h.stale⟩ : Heap)
      have hbinRFlen : (remove_free h (chainLen l₁') q'.size).bins.length = NUM_BINS := by
        rw [remove_free_binlen]
        exact hInv.binlen
      have hiM : size_to_bin (q'.size + sizeofBlock + sizeofFooter + b.size) <
          (remove_free h (chainLen l₁') q'.size).bins.length := by
        rw [hbinRFlen]
        exact size_to_bin_lt _
      refine inv_merge h hInv l₁' [q', b] l₂
        (Block.mk (q'.size + sizeofBlock + sizeofFooter + b.size) q'.free)
        (by rw [hblocks3]; simp) (by simp)
        (by rw [blockFootprint_eq, chainLen_cons, chainLen_singleton,
            blockFootprint_eq, blockFootprint_eq]; simp only [sizeofBlock, sizeofFooter]; omega)
        hq'free
        (by simp only [sizeofBlock, sizeofFooter]; omega)
        hL1last hnextF _ _ (by rw [List.length_set]; exact hbinRFlen) ?_ ?_ ?_ ?_
      · intro i off' hoff'
        by_cases hieq : i = size_to_bin (q'.size + sizeofBlock + sizeofFooter + b.size)
        · subst hieq
          rw [getDL_set_self _ _ _ hiM] at hoff'
          rcases List.mem_cons.mp hoff' with hhd | htl
          · exact Or.inl ⟨hhd, rfl⟩
          · rcases hspec_sub _ off' htl with ⟨hold, hne⟩
            refine Or.inr ⟨hold, ?_⟩
            intro k hk
            simp only [List.length_cons, List.length_nil] at hk
            interval_cases k
            · rw [Nat.add_zero, hoffq]
              exact fun habs => hne habs.symm
            · rw [hoffb2]
              exact fun habs => hb2_not_entry _ (habs ▸ hold)
        · rw [getDL_set_ne _ _ _ _ hieq] at hoff'
          rcases hspec_sub _ off' hoff' with ⟨hold, hne⟩
          refine Or.inr ⟨hold, ?_⟩
          intro k hk
          simp only [List.length_cons, List.length_nil] at hk
          interval_cases k
          · rw [Nat.add_zero, hoffq]
            exact fun habs => hne habs.symm
          · rw [hoffb2]
            exact fun habs => hb2_not_entry _ (habs ▸ hold)
      · intro i off' hmem havoid
        have hne0 : off' ≠ chainLen l₁' := by
          have := havoid 0 (by simp)
          rw [Nat.add_zero, hoffq] at this
          exact fun habs => this habs.symm
        have hRF := hspec_sup i off' hmem hne0
        by_cases hieq : i = size_to_bin (q'.size + sizeofBlock + sizeofFooter + b.size)
        · subst hieq
          rw [getDL_set_self _ _ _ hiM]
          exact List.mem_cons_of_mem _ hRF
        · rw [getDL_set_ne _ _ _ _ hieq]
          exact hRF
      · rw [show size_to_bin (Block.mk (q'.size + sizeofBlock + sizeofFooter + b.size)
            q'.free).size = size_to_bin (q'.size + sizeofBlock + sizeofFooter + b.size)
          from rfl, getDL_set_self _ _ _ hiM]
        exact List.mem_cons_self _ _
      · intro i
        by_cases hieq : i = size_to_bin (q'.size + sizeofBlock + sizeofFooter + b.size)
        · subst hieq
          rw [getDL_set_self _ _ _ hiM]
          refine List.nodup_cons.mpr ⟨?_, hspec_nd _⟩
          intro habs
          rcases hspec_sub _ _ habs with ⟨_, hne⟩
          exact hne rfl
        · rw [getDL_set_ne _ _ _ _ hieq]
          exact hspec_nd i
  · rcases hPrev with hprevF | ⟨l₁', q', hl₁, hq'free⟩
    · -- only the successor is free
      subst hl₂
      have hblocks3 : h.blocks = l₁ ++ b :: n :: l₂' := hblocks
      have hgetn : h.blocks[l₁.length + 1]? = some n := by
        rw [hblocks3]
        exact getElem?_two_mid_right l₁ l₂' b n
      have hoffn : offsetAt h.blocks (l₁.length + 1) = chainLen l₁ + blockFootprint b := by
        rw [hblocks3]
        exact offsetAt_two_mid_right l₁ l₂' b n
      have hn8 : 8 ∣ n.size := hInv.sizes n (by rw [hblocks3]; simp)
      have hspec := binGet_remove_spec h hInv.bins_sound hInv.bins_nodup hInv.binlen
        (l₁.length + 1) n hgetn
      rw [hoffn] at hspec
      rcases hspec with ⟨hspec_sub, hspec_sup, hspec_nd⟩
      have hL2head : ∀ y ∈ l₂'.head?, y.free = false := by
        intro y hy
        have h0 := hInv.noadj
        rw [hblocks3] at h0
        rw [show l₁ ++ b :: n :: l₂' = (l₁ ++ [b]) ++ n :: l₂' from by simp] at h0
        rcases noadj_decomp (l₁ ++ [b]) l₂' n h0 with ⟨_, _, _, hedge⟩
        rcases hedge y hy with hnf | hyf
        · rw [hnfree] at hnf
          cases hnf
        · exact hyf
      rw [coalesce_eq_fwd _ l₁ l₂' (Block.mk b.size true) n rfl hnfree hprevF]
      show Inv (⟨h.heap_initialized,
        l₁ ++ Block.mk (b.size + sizeofBlock + sizeofFooter + n.size) true :: l₂',
        (remove_free h (chainLen l₁ + blockFootprint b) n.size).bins.set
          (size_to_bin (b.size + sizeofBlock + sizeofFooter + n.size))
          (chainLen l₁ :: binGet (remove_free h (chainLen l₁ + blockFootprint b) n.size)
            (size_to_bin (b.size + sizeofBlock + sizeofFooter + n.size))),
        (chainLen l₁ + blockFootprint b) :: h.stale⟩ : Heap)
      have hbinRFlen : (remove_free h (chainLen l₁ + blockFootprint b) n.size).bins.length =
          NUM_BINS := by
        rw [remove_free_binlen]
        exact hInv.binlen
      have hiM : size_to_bin (b.size + sizeofBlock + sizeofFooter + n.size) <
          (remove_free h (chainLen l₁ + blockFootprint b) n.size).bins.length := by
        rw [hbinRFlen]
        exact size_to_bin_lt _
      refine inv_merge h hInv l₁ [b, n] l₂'
        (Block.mk (b.size + sizeofBlock + sizeofFooter + n.size) true)
        (by rw [hblocks3]; simp) (by simp)
        (by rw [blockFootprint_eq, chainLen_cons, chainLen_singleton,
            blockFootprint_eq, blockFootprint_eq]; simp only [sizeofBlock, sizeofFooter]; omega)
        rfl
        (by simp only [sizeofBlock, sizeofFooter]; omega)
        hprevF hL2head _ _ (by rw [List.length_set]; exact hbinRFlen) ?_ ?_ ?_ ?_
      · intro i off' hoff'
        by_cases hieq : i = size_to_bin (b.size + sizeofBlock + sizeofFooter + n.size)
        · subst hieq
          rw [getDL_set_self _ _ _ hiM] at hoff'
          rcases List.mem_cons.mp hoff' with hhd | htl
          · exact Or.inl ⟨hhd, rfl⟩
          · rcases hspec_sub _ off' htl with ⟨hold, hne⟩
            refine Or.inr ⟨hold, ?_⟩
            intro k hk
            simp only [List.length_cons, List.length_nil] at hk
            interval_cases k
            · rw [Nat.add_zero, hoffb]
              exact fun habs => hb_not_entry _ (habs ▸ hold)
            · rw [hoffn]
              exact fun habs => hne habs.symm
        · rw [getDL_set_ne _ _ _ _ hieq] at hoff'
          rcases hspec_sub _ off' hoff' with ⟨hold, hne⟩
          refine Or.inr ⟨hold, ?_⟩
          intro k hk
          simp only [List.length_cons, List.length_nil] at hk
          interval_cases k
          · rw [Nat.add_zero, hoffb]
            exact fun habs => hb_not_entry _ (habs ▸ hold)
          · rw [hoffn]
            exact fun habs => hne habs.symm
      · intro i off' hmem havoid
        have hne1 : off' ≠ chainLen l₁ + blockFootprint b := by
          have := havoid 1 (by simp)
          rw [hoffn] at this
          exact fun habs => this habs.symm
        have hRF := hspec_sup i off' hmem hne1
        by_cases hieq : i = size_to_bin (b.size + sizeofBlock + sizeofFooter + n.size)
        · subst hieq
          rw [getDL_set_self _ _ _ hiM]
          exact List.mem_cons_of_mem _ hRF
        · rw [getDL_set_ne _ _ _ _ hieq]
          exact hRF
      · rw [show size_to_bin (Block.mk (b.size + sizeofBlock + sizeofFooter + n.size)
            true).size = size_to_bin (b.size + sizeofBlock + sizeofFooter + n.size)
          from rfl, getDL_set_self _ _ _ hiM]
        exact List.mem_cons_self _ _
      · intro i
        by_cases hieq : i = size_to_bin (b.size + sizeofBlock + sizeofFooter + n.size)
        · subst hieq
          rw [getDL_set_self _ _ _ hiM]
          refine List.nodup_cons.mpr ⟨?_, hspec_nd _⟩
          intro habs
          rcases hspec_sub _ _ habs with ⟨hold, _⟩
          exact hb_not_entry _ hold
        · rw [getDL_set_ne _ _ _ _ hieq]
          exact hspec_nd i
    · -- both neighbors are free
      subst hl₂
      subst hl₁
      have hblocks4 : h.blocks = l₁' ++ q' :: b :: n :: l₂' := by
        rw [hblocks]
        simp
      have hgetq : h.blocks[l₁'.length]? = some q' := by
        rw [hblocks4]
        exact getElem?_two_mid_left l₁' (n :: l₂') q' b
      have hoffq : offsetAt h.blocks l₁'.length = chainLen l₁' := by
        rw [hblocks4]
        exact offsetAt_len l₁' _
      have hgetb2 : h.blocks[l₁'.length + 1]? = some b := by
        rw [hblocks4]
        exact getElem?_two_mid_right l₁' (n :: l₂') q' b
      have hoffb2 : offsetAt h.blocks (l₁'.length + 1) = chainLen l₁' + blockFootprint q' := by
        rw [hblocks4]
        exact offsetAt_two_mid_right l₁' (n :: l₂') q' b
      have hgetn : h.blocks[l₁'.length + 2]? = some n := by
        rw [hblocks4]
        have := getElem?_two_mid_past l₁' (n :: l₂') q' b 0
        rw [show l₁'.length + 2 + 0 = l₁'.length + 2 from rfl] at this
        rw [this]
        exact List.getElem?_cons_zero
      have hoffn : offsetAt h.blocks (l₁'.length + 2) =
          chainLen l₁' + blockFootprint q' + blockFootprint b := by
        rw [hblocks4]
        have := offsetAt_two_mid_past l₁' (n :: l₂') q' b 0
        rw [show l₁'.length + 2 + 0 = l₁'.length + 2 from rfl] at this
        rw [this, offsetAt_zero]
        omega
      have hq8 : 8 ∣ q'.size := hInv.sizes q' (by rw [hblocks4]; simp)
      have hn8 : 8 ∣ n.size := hInv.sizes n (by rw [hblocks4]; simp)
      have hspec1 := binGet_remove_spec h hInv.bins_sound hInv.bins_nodup hInv.binlen
        (l₁'.length + 2) n hgetn
      rw [hoffn] at hspec1
      rcases hspec1 with ⟨hspec1_sub, hspec1_sup, hspec1_nd⟩
      -- the heap after the first unlink, as seen by the second one
      have hX2sound : ∀ i : ℕ, ∀ off' ∈ binGet ({ h with bins :=
          (remove_free h (chainLen l₁' + blockFootprint q' + blockFootprint b)
            n.size).bins } : Heap) i,
          ∃ j bb, ({ h with bins := (remove_free h (chainLen l₁' + blockFootprint q' +
              blockFootprint b) n.size).bins } : Heap).blocks[j]? = some bb ∧
            offsetAt ({ h with bins := (remove_free h (chainLen l₁' + blockFootprint q' +
              blockFootprint b) n.size).bins } : Heap).blocks j = off' ∧
            bb.free = true ∧ size_to_bin bb.size = i := by
        intro i off' hmem
        exact hInv.bins_sound i off' (hspec1_sub i off' hmem).1
      have hX2nd : ∀ i : ℕ, (binGet ({ h with bins :=
          (remove_free h (chainLen l₁' + blockFootprint q' + blockFootprint b)
            n.size).bins } : Heap) i).Nodup := hspec1_nd
      have hX2len : ({ h with bins := (remove_free h (chainLen l₁' + blockFootprint q' +
          blockFootprint b) n.size).bins } : Heap).bins.length = NUM_BINS := by
        show (remove_free h _ _).bins.length = NUM_BINS
        rw [remove_free_binlen]
        exact hInv.binlen
      have hX2get : ({ h with bins := (remove_free h (chainLen l₁' + blockFootprint q' +
          blockFootprint b) n.size).bins } : Heap).blocks[l₁'.length]? = some q' := hgetq
      have hspec2 := binGet_remove_spec _ hX2sound hX2nd hX2len l₁'.length q' hX2get
      rw [show offsetAt ({ h with bins := (remove_free h (chainLen l₁' + blockFootprint q' +
          blockFootprint b) n.size).bins } : Heap).blocks l₁'.length = chainLen l₁'
        from hoffq] at hspec2
      rcases hspec2 with ⟨hspec2_sub, hspec2_sup, hspec2_nd⟩
      have hL1last : ∀ x ∈ l₁'.getLast?, x.free = false := by
        intro x hx
        have h0 := hInv.noadj
        rw [hblocks4] at h0
        rcases noadj_decomp l₁' (b :: n :: l₂') q' h0 with ⟨_, _, hedge, _⟩
        rcases hedge x hx with hxf | hqf
        · exact hxf
        · rw [hq'free] at hqf
          cases hqf
      have hL2head : ∀ y ∈ l₂'.head?, y.free = false := by
        intro y hy
        have h0 := hInv.noadj
        rw [hblocks4] at h0
        rw [show l₁' ++ q' :: b :: n :: l₂' = (l₁' ++ [q', b]) ++ n :: l₂' from by simp] at h0
        rcases noadj_decomp (l₁' ++ [q', b]) l₂' n h0 with ⟨_, _, _, hedge⟩
        rcases hedge y hy with hnf | hyf
        · rw [hnfree] at hnf
          cases hnf
        · exact hyf
      rw [show (l₁' ++ [q']).length = l₁'.length + 1 from by simp]
      rw [coalesce_eq_both _ l₁' l₂' q' (Block.mk b.size true) n (by simp) hq'free hnfree]
      show Inv (⟨h.heap_initialized,
        l₁' ++ Block.mk (q'.size + sizeofBlock + sizeofFooter +
          (b.size + sizeofBlock + sizeofFooter + n.size)) q'.free :: l₂',
        (remove_free ({ h with bins := (remove_free h
            (chainLen l₁' + blockFootprint q' + blockFootprint b) n.size).bins } : Heap)
            (chainLen l₁') q'.size).bins.set
          (size_to_bin (q'.size + sizeofBlock + sizeofFooter +
            (b.size + sizeofBlock + sizeofFooter + n.size)))
          (chainLen l₁' :: binGet (remove_free ({ h with bins := (remove_free h
              (chainLen l₁' + blockFootprint q' + blockFootprint b) n.size).bins } : Heap)
              (chainLen l₁') q'.size)
            (size_to_bin (q'.size + sizeofBlock + sizeofFooter +
              (b.size + sizeofBlock + sizeofFooter + n.size)))),
        (chainLen l₁' + blockFootprint q') ::
          (chainLen l₁' + blockFootprint q' + blockFootprint b) :: h.stale⟩ : Heap)
      have hbinRFlen : (remove_free ({ h with bins := (remove_free h
          (chainLen l₁' + blockFootprint q' + blockFootprint b) n.size).bins } : Heap)
          (chainLen l₁') q'.size).bins.length = NUM_BINS := by
        rw [remove_free_binlen]
        exact hX2len
      have hiM : size_to_bin (q'.size + sizeofBlock + sizeofFooter +
          (b.size + sizeofBlock + sizeofFooter + n.size)) <
          (remove_free ({ h with bins := (remove_free h
            (chainLen l₁' + blockFootprint q' + blockFootprint b) n.size).bins } : Heap)
            (chainLen l₁') q'.size).bins.length := by
        rw [hbinRFlen]
        exact size_to_bin_lt _
      refine inv_merge h hInv l₁' [q', b, n] l₂'
        (Block.mk (q'.size + sizeofBlock + sizeofFooter +
          (b.size + sizeofBlock + sizeofFooter + n.size)) q'.free)
        (by rw [hblocks4]; simp) (by simp)
        (by rw [blockFootprint_eq, chainLen_cons, chainLen_cons, chainLen_singleton,
            blockFootprint_eq, blockFootprint_eq, blockFootprint_eq]; simp only [sizeofBlock, sizeofFooter]; omega)
        hq'free
        (by simp only [sizeofBlock, sizeofFooter]; omega)
        hL1last hL2head _ _ (by rw [List.length_set]; exact hbinRFlen) ?_ ?_ ?_ ?_
      · intro i off' hoff'
        by_cases hieq : i = size_to_bin (q'.size + sizeofBlock + sizeofFooter +
            (b.size + sizeofBlock + sizeofFooter + n.size))
        · subst hieq
          rw [getDL_set_self _ _ _ hiM] at hoff'
          rcases List.mem_cons.mp hoff' with hhd | htl
          · exact Or.inl ⟨hhd, rfl⟩
          · rcases hspec2_sub _ off' htl with ⟨hmid, hneq⟩
            rcases hspec1_sub _ off' hmid with ⟨hold, hnen⟩
            refine Or.inr ⟨hold, ?_⟩
            intro k hk
            simp only [List.length_cons, List.length_nil] at hk
            interval_cases k
            · rw [Nat.add_zero, hoffq]
              exact fun habs => hneq habs.symm
            · rw [hoffb2]
              exact fun habs => (not_entry_at h hInv (l₁'.length + 1) b hgetb2 hbfree _)
                (by rw [hoffb2]; exact habs ▸ hold)
            · rw [hoffn]
              exact fun habs => hnen habs.symm
        · rw [getDL_set_ne _ _ _ _ hieq] at hoff'
          rcases hspec2_sub _ off' hoff' with ⟨hmid, hneq⟩
          rcases hspec1_sub _ off' hmid with ⟨hold, hnen⟩
          refine Or.inr ⟨hold, ?_⟩
          intro k hk
          simp only [List.length_cons, List.length_nil] at hk
          interval_cases k
          · rw [Nat.add_zero, hoffq]
            exact fun habs => hneq habs.symm
          · rw [hoffb2]
            exact fun habs => (not_entry_at h hInv (l₁'.length + 1) b hgetb2 hbfree _)
              (by rw [hoffb2]; exact habs ▸ hold)
          · rw [hoffn]
            exact fun habs => hnen habs.symm
      · intro i off' hmem havoid
        have hne0 : off' ≠ chainLen l₁' := by
          have := havoid 0 (by simp)
          rw [Nat.add_zero, hoffq] at this
          exact fun habs => this habs.symm
        have hne2 : off' ≠ chainLen l₁' + blockFootprint q' + blockFootprint b := by
          have := havoid 2 (by simp)
          rw [hoffn] at this
          exact fun habs => this habs.symm
        have hRF1 := hspec1_sup i off' hmem hne2
        have hRF2 := hspec2_sup i off' hRF1 hne0
        by_cases hieq : i = size_to_bin (q'.size + sizeofBlock + sizeofFooter +
            (b.size + sizeofBlock + sizeofFooter + n.size))
        · subst hieq
          rw [getDL_set_self _ _ _ hiM]
          exact List.mem_cons_of_mem _ hRF2
        · rw [getDL_set_ne _ _ _ _ hieq]
          exact hRF2
      · rw [show size_to_bin (Block.mk (q'.size + sizeofBlock + sizeofFooter +
            (b.size + sizeofBlock + sizeofFooter + n.size)) q'.free).size =
            size_to_bin (q'.size + sizeofBlock + sizeofFooter +
              (b.size + sizeofBlock + sizeofFooter + n.size)) from rfl,
          getDL_set_self _ _ _ hiM]
        exact List.mem_cons_self _ _
      · intro i
        by_cases hieq : i = size_to_bin (q'.size + sizeofBlock + sizeofFooter +
            (b.size + sizeofBlock + sizeofFooter + n.size))
        · subst hieq
          rw [getDL_set_self _ _ _ hiM]
          refine List.nodup_cons.mpr ⟨?_, hspec2_nd _⟩
          intro habs
          rcases hspec2_sub _ _ habs with ⟨_, hne⟩
          exact hne rfl
        · rw [getDL_set_ne _ _ _ _ hieq]
          exact hspec2_nd i

/-! ### Invariant preservation for the remaining entry points -/

theorem inv_my_calloc (h : Heap) (hInv : Inv h) (n s : ℕ) : Inv (my_calloc h n s).2 :=
  inv_my_malloc h hInv (n * s % U64)

theorem inv_my_realloc (h : Heap) (hInv : Inv h) (p : Option ℕ) (sz : ℕ) :
    Inv (my_realloc h p sz).2 := by
  have hmalloc : Inv (my_malloc h sz).2 := inv_my_malloc h hInv sz
  cases p with
  | none =>
    rcases hm : my_malloc h sz with ⟨r, h'⟩
    rw [hm] at hmalloc
    cases r with
    | none => simpa [my_realloc, hm] using hmalloc
    | some q => simpa [my_realloc, hm] using hmalloc
  | some q =>
    by_cases hlt : q < sizeofBlock
    · simpa [my_realloc, hlt] using hInv
    · rcases hidx : idxAt h.blocks (q - sizeofBlock) with _ | i
      · simpa [my_realloc, hlt, hidx] using hInv
      · by_cases hsz : sz ≤ (blockAt h.blocks i).size
        · simpa [my_realloc, hlt, hidx, hsz] using hInv
        · rcases hm : my_malloc h sz with ⟨r, h'⟩
          rw [hm] at hmalloc
          cases r with
          | none => simpa [my_realloc, hlt, hidx, hsz, hm] using hmalloc
          | some np =>
            have hfree : Inv (my_free h' (some q)).2 := inv_my_free h' hmalloc (some q)
            simpa [my_realloc, hlt, hidx, hsz, hm] using hfree

theorem inv_step (h h' : Heap) (hInv : Inv h) (hst : Step h h') : Inv h' := by
  cases hst with
  | malloc sz => exact inv_my_malloc h hInv sz
  | calloc n s => exact inv_my_calloc h hInv n s
  | free p => exact inv_my_free h hInv p
  | realloc p sz => exact inv_my_realloc h hInv p sz

theorem inv_reachable (h : Heap) (hr : Reachable h) : Inv h := by
  induction hr with
  | refl => exact inv_emptyHeap
  | tail _ hst ih => exact inv_step _ _ ih hst

/-- `heap_init` is reachable: the very first call with an unsatisfiable
request initializes the arena and fails the allocation, leaving exactly the
freshly initialized heap. -/
theorem reachable_heap_init : Reachable heap_init := by
  have h1 : Step emptyHeap (my_malloc emptyHeap (2 ^ 32)).2 :=
    Step.malloc emptyHeap (2 ^ 32)
  have h2 : (my_malloc emptyHeap (2 ^ 32)).2 = heap_init := by decide
  rw [h2] at h1
  exact Relation.ReflTransGen.single h1

/-! ### Auxiliary facts used by the specification claims -/

theorem chainLen_dvd8 (l : List Block) (hdvd : ∀ b ∈ l, 8 ∣ b.size) : 8 ∣ chainLen l := by
  induction l with
  | nil => simp [chainLen_nil]
  | cons b t ih =>
    rw [chainLen_cons, blockFootprint_eq]
    have h1 := hdvd b (by simp)
    have h2 := ih (fun x hx => hdvd x (by simp [hx]))
    omega

theorem offsetAt_length (bs : List Block) : offsetAt bs bs.length = chainLen bs := by
  rw [offsetAt, List.take_length]

theorem offsetAt_add_fp_le (bs : List Block) (j : ℕ) (b : Block) (hj : bs[j]? = some b) :
    offsetAt bs j + blockFootprint b ≤ chainLen bs := by
  have hjlen : j < bs.length := (List.getElem?_eq_some.mp hj).1
  have hsucc := offsetAt_succ bs j b hj
  have hle := offsetAt_le bs (j + 1) bs.length (by omega)
  rw [offsetAt_length] at hle
  omega

theorem sizeAt_at_len (l₁ l₂ : List Block) (c : Block) :
    sizeAt (l₁ ++ c :: l₂) (chainLen l₁) = c.size := by
  have hget := getElem?_at_len l₁ l₂ c
  have hidx : idxAt (l₁ ++ c :: l₂) (chainLen l₁) = some l₁.length :=
    (idxAt_some_iff _ _ _).mpr ⟨(List.getElem?_eq_some.mp hget).1, offsetAt_len l₁ _⟩
  rw [sizeAt, hidx]
  show (blockAt (l₁ ++ c :: l₂) l₁.length).size = c.size
  rw [blockAt_of_getElem? _ _ _ hget]

theorem findFitFrom_zero_none (h : Heap) (is : List ℕ) (hf : findFitFrom h 0 is = none) :
    ∀ i ∈ is, binGet h i = [] := by
  induction is with
  | nil => intro i hi; cases hi
  | cons j rest ih =>
    rw [findFitFrom] at hf
    cases hfind : (binGet h j).find? (fun off => decide (0 ≤ sizeAt h.blocks off)) with
    | some o => rw [hfind] at hf; cases hf
    | none =>
      rw [hfind] at hf
      intro i hi
      rcases List.mem_cons.mp hi with rfl | hmem
      · cases hbin : binGet h i with
        | nil => rfl
        | cons o t =>
          have habs := List.find?_eq_none.mp (hbin ▸ hfind) o (by simp)
          simp at habs
      · exact ih hf i hmem

theorem my_free_doubleFree_flag (h : Heap) (p i : ℕ) (hpH : p < HEAP_SIZE)
    (hp48 : sizeofBlock ≤ p)
    (hidx : idxAt h.blocks (p - sizeofBlock) = some i)
    (hfree : (blockAt h.blocks i).free = true) :
    my_free h (some p) = (.doubleFree, h) := by
  rw [my_free, if_neg (not_le.mpr hpH), if_neg (not_lt.mpr hp48), hidx]
  simp only [hfree, if_true]

theorem my_free_doubleFree_stale (h : Heap) (p : ℕ) (hpH : p < HEAP_SIZE)
    (hp48 : sizeofBlock ≤ p)
    (hidx : idxAt h.blocks (p - sizeofBlock) = none)
    (hstale : (p - sizeofBlock) ∈ h.stale) :
    my_free h (some p) = (.doubleFree, h) := by
  rw [my_free, if_neg (not_le.mpr hpH), if_neg (not_lt.mpr hp48), hidx]
  rw [if_pos hstale]

/-! ### The specification claims -/

/-- C1: for every reachable allocator state, after any call to `my_free`
completes, no two physically adjacent blocks of the arena are both marked
free. -/
theorem claim_C1 (h : Heap) (hr : Reachable h) (p : Option ℕ) :
    NoAdjFree ((my_free h p).2).blocks :=
  (inv_my_free h (inv_reachable h hr) p).noadj

theorem claim_C1_witness : NoAdjFree ((my_free heap_init (some 48)).2).blocks :=
  claim_C1 heap_init reachable_heap_init (some 48)

/-- C2: the specification demands that `my_calloc` reject a multiplication
overflow with a `SizeOverflow` sentinel before any allocation attempt.  The
source computes `n * s` in `size_t` with no overflow check: for
`n = 2 ^ 63`, `s = 2` the product wraps to `0`, and the call allocates and
succeeds, returning a payload pointer and changing the heap. -/
theorem claim_C2 :
    (my_calloc heap_init (2 ^ 63) 2).1 = some 48 ∧
    (my_calloc heap_init (2 ^ 63) 2).2.blocks ≠ heap_init.blocks := by
  decide

/-- C4: whenever `my_malloc` succeeds on a reachable state with request
size at least 1, the returned payload offset from the arena base is a
multiple of 8. -/
theorem claim_C4 (h : Heap) (hr : Reachable h) (sz p : ℕ) (hsz : 1 ≤ sz)
    (hp : (my_malloc h sz).1 = some p) : p % 8 = 0 := by
  have hInv := inv_reachable h hr
  rcases my_malloc_some_elim h hInv sz p hp with ⟨l₁, b, l₂, hblocks, _, _, hpe, _⟩
  have hInv0 := inv_lazy h hInv
  have hdvd : 8 ∣ chainLen l₁ := by
    apply chainLen_dvd8
    intro c hc
    exact hInv0.sizes c (by rw [hblocks]; exact List.mem_append_left _ hc)
  rcases hdvd with ⟨k, hk⟩
  simp only [sizeofBlock] at hpe
  omega

theorem claim_C4_witness :
    1 ≤ 16 ∧ (my_malloc heap_init 16).1 = some 48 ∧ (48 : ℕ) % 8 = 0 :=
  ⟨by decide, by decide, claim_C4 heap_init reachable_heap_init 16 48 (by decide) (by decide)⟩

/-- The fit guarantee the code actually provides: whenever `my_malloc`
succeeds, the block owning the returned payload pointer records a size at
least `align8 sz` — the request aligned by the wrapping `(n + 7) & ~7` in
`size_t`, which is 0 (not a round-up) for `sz` within 7 of `2 ^ 64`. -/
theorem my_malloc_fit_align8 (h : Heap) (sz p : ℕ) (hp : (my_malloc h sz).1 = some p) :
    align8 sz ≤ sizeAt ((my_malloc h sz).2).blocks (p - sizeofBlock) := by
  cases hff : find_fit (if h.heap_initialized then h else heap_init) (align8 sz) with
  | none =>
    rw [my_malloc, hff] at hp
    simp at hp
  | some off =>
    cases hidx : idxAt (if h.heap_initialized then h else heap_init).blocks off with
    | none =>
      rw [my_malloc, hff] at hp
      simp only [hidx] at hp
      simp at hp
    | some i =>
      rcases (idxAt_some_iff _ _ _).mp hidx with ⟨hilen, hoff⟩
      cases hgb : (if h.heap_initialized then h else heap_init).blocks[i]? with
      | none =>
        rw [List.getElem?_eq_none_iff] at hgb
        omega
      | some b =>
        rcases decomp_of_getElem? _ i b hgb with ⟨l₁, l₂, hblocks, hlen⟩
        have hofc : off = chainLen l₁ := by
          rw [← hoff, hblocks, ← hlen, offsetAt_len]
        rcases find_fit_mem _ _ _ hff with ⟨ibin, _, hfit⟩
        have hfitb : align8 sz ≤ b.size := by
          rw [sizeAt, hidx] at hfit
          have hfit2 : align8 sz ≤
              (blockAt (if h.heap_initialized then h else heap_init).blocks i).size := hfit
          rw [blockAt_of_getElem? _ _ _ hgb] at hfit2
          exact hfit2
        subst hofc
        have hfst := my_malloc_fst h sz (chainLen l₁) i hff hidx
        rw [hp] at hfst
        have hpe : p = chainLen l₁ + sizeofBlock := by
          injection hfst
        have hpsub : p - sizeofBlock = chainLen l₁ := by
          rw [hpe]; omega
        by_cases hsmall : sub64 b.size (align8 sz) < sizeofBlock + sizeofFooter + ALIGN
        · have hmal := my_malloc_eq_nosplit h sz l₁ l₂ b hff hblocks hsmall
          rw [hmal, hpsub]
          show align8 sz ≤ sizeAt (l₁ ++ Block.mk b.size false :: l₂) (chainLen l₁)
          rw [sizeAt_at_len]
          exact hfitb
        · have hmal := my_malloc_eq_split h sz l₁ l₂ b hff hblocks hsmall
          rw [hmal, hpsub]
          show align8 sz ≤ sizeAt (l₁ ++ Block.mk (align8 sz) false ::
            Block.mk (sub64 b.size (align8 sz) - sizeofBlock - sizeofFooter) true :: l₂)
            (chainLen l₁)
          rw [sizeAt_at_len]

theorem my_malloc_fit_align8_inst :
    (my_malloc heap_init 16).1 = some 48 ∧
    align8 16 ≤ sizeAt ((my_malloc heap_init 16).2).blocks (48 - sizeofBlock) :=
  ⟨by decide, my_malloc_fit_align8 heap_init 16 48 (by decide)⟩

/-- C5: the specification requires every successful allocation to record a
size at least the request rounded up to the next multiple of 8 — a true
round-up, which never decreases.  The source aligns with the wrapping
`ALIGN8(n) = (n + 7) & ~7` in `size_t`: for the request `2 ^ 64 - 1`
(`SIZE_MAX`) the alignment wraps to 0, `my_malloc` succeeds as if 0 bytes
were requested, and the returned block records size 0 — below the request
and far below its round-up. -/
theorem claim_C5 :
    (my_malloc heap_init (2 ^ 64 - 1)).1 = some 48 ∧
    sizeAt ((my_malloc heap_init (2 ^ 64 - 1)).2).blocks (48 - sizeofBlock) = 0 := by
  decide

/-- C10: `my_realloc` with a null pointer is exactly `my_malloc`: the
resulting states coincide and the results correspond (`ptr q` to `some q`,
`oom` to `none`). -/
theorem claim_C10 (h : Heap) (sz : ℕ) :
    (my_realloc h none sz).2 = (my_malloc h sz).2 ∧
    (∀ q : ℕ, (my_realloc h none sz).1 = ReallocResult.ptr q ↔
      (my_malloc h sz).1 = some q) ∧
    ((my_realloc h none sz).1 = ReallocResult.oom ↔ (my_malloc h sz).1 = none) := by
  rcases hm : my_malloc h sz with ⟨r, h2⟩
  cases r <;> simp [my_realloc, hm]

/-- C7: when resizing a live allocated block to a request its current size
cannot satisfy, a failed internal allocation makes `my_realloc` return the
out-of-memory sentinel with the allocator state — the original block
included — completely unchanged. -/
theorem claim_C7 (h : Heap) (p sz i : ℕ)
    (hinit : h.heap_initialized = true)
    (hp48 : sizeofBlock ≤ p)
    (hi : idxAt h.blocks (p - sizeofBlock) = some i)
    (hlive : (blockAt h.blocks i).free = false)
    (hgrow : (blockAt h.blocks i).size < sz)
    (hfail : (my_malloc h sz).1 = none) :
    my_realloc h (some p) sz = (ReallocResult.oom, h) := by
  have h2 := my_malloc_fail h sz hfail
  rw [hinit] at h2
  rw [if_pos rfl] at h2
  rcases hm : my_malloc h sz with ⟨r, h3⟩
  have hr1 : r = none := by rw [hm] at hfail; exact hfail
  have hr2 : h3 = h := by rw [hm] at h2; exact h2
  have hm2 : my_malloc h sz = (none, h) := by rw [hm, hr1, hr2]
  rw [my_realloc, if_neg (not_lt.mpr hp48), hi]
  show (if sz ≤ (blockAt h.blocks i).size then (ReallocResult.ptr p, h)
    else match my_malloc h sz with
      | (none, h4) => (ReallocResult.oom, h4)
      | (some np, h4) => (ReallocResult.ptr np, (my_free h4 (some p)).2)) =
    (ReallocResult.oom, h)
  rw [if_neg (not_le.mpr hgrow), hm2]

theorem claim_C7_witness :
    ((my_malloc heap_init 16).2.heap_initialized = true ∧
      sizeofBlock ≤ 48 ∧
      idxAt (my_malloc heap_init 16).2.blocks (48 - sizeofBlock) = some 0 ∧
      (blockAt (my_malloc heap_init 16).2.blocks 0).free = false ∧
      (blockAt (my_malloc heap_init 16).2.blocks 0).size < 2097152 ∧
      (my_malloc (my_malloc heap_init 16).2 2097152).1 = none) ∧
    my_realloc (my_malloc heap_init 16).2 (some 48) 2097152 =
      (ReallocResult.oom, (my_malloc heap_init 16).2) :=
  ⟨⟨by decide, by decide, by decide, by decide, by decide, by decide⟩,
    claim_C7 (my_malloc heap_init 16).2 48 2097152 0 (by decide) (by decide)
      (by decide) (by decide) (by decide) (by decide)⟩

/-- C8 (amended): `my_realloc` performs no bounds validation on its
pointer.  For any reachable state and any pointer at or beyond the arena
size, the header offset `p - sizeof(Block)` matches no block of the chain;
the source dereferences it regardless (an unvalidated read, modeled as
`unmodeledRead`) and never reports `OutOfRange` — only `my_free`
validates.  The state is left unchanged. -/
theorem claim_C8 (h : Heap) (hr : Reachable h) (p sz : ℕ) (hp : HEAP_SIZE ≤ p) :
    (my_realloc h (some p) sz).1 = ReallocResult.unmodeledRead ∧
    (my_realloc h (some p) sz).2 = h := by
  have hInv := inv_reachable h hr
  have h48 : (48 : ℕ) ≤ HEAP_SIZE := by decide
  have hlt : ¬ p < sizeofBlock := by
    simp only [sizeofBlock]
    omega
  have hidx : idxAt h.blocks (p - sizeofBlock) = none := by
    rw [idxAt_none_iff]
    intro j hj habs
    cases hgb : h.blocks[j]? with
    | none =>
      rw [List.getElem?_eq_none_iff] at hgb
      omega
    | some b =>
      have hfp := offsetAt_add_fp_le h.blocks j b hgb
      have hfp56 := blockFootprint_ge b
      cases hflag : h.heap_initialized with
      | false =>
        have hempty := hInv.init_empty hflag
        rw [hempty] at hj
        simp [emptyHeap] at hj
      | true =>
        have htot := hInv.total hflag
        rw [htot] at hfp
        simp only [sizeofBlock] at habs
        omega
  rw [my_realloc, if_neg hlt, hidx]
  exact ⟨rfl, rfl⟩

theorem claim_C8_witness :
    HEAP_SIZE ≤ 2 * HEAP_SIZE ∧
    ((my_realloc heap_init (some (2 * HEAP_SIZE)) 32).1 = ReallocResult.unmodeledRead ∧
      (my_realloc heap_init (some (2 * HEAP_SIZE)) 32).2 = heap_init) :=
  ⟨by decide, claim_C8 heap_init reachable_heap_init (2 * HEAP_SIZE) 32 (by decide)⟩

/-- C8 (counterexample to the claimed behavior): `my_realloc` on the
out-of-arena pointer `2 * HEAP_SIZE` does not report `OutOfRange`; no
execution path of the source produces that diagnostic. -/
theorem claim_C8_counterexample :
    (my_realloc heap_init (some (2 * HEAP_SIZE)) 32).1 ≠ ReallocResult.outOfRange := by
  decide

/-- C9: a zero-byte request is served like any other: on any reachable
state that still has a free block, `my_malloc h 0` returns a payload
pointer, never the failure sentinel. -/
theorem claim_C9 (h : Heap) (hr : Reachable h) (b : Block) (hb : b ∈ h.blocks)
    (hbfree : b.free = true) : ∃ p, (my_malloc h 0).1 = some p := by
  have hInv := inv_reachable h hr
  cases hflag : h.heap_initialized with
  | false =>
    have hempty := hInv.init_empty hflag
    rw [hempty] at hb
    simp [emptyHeap] at hb
  | true =>
    have hIf : (if h.heap_initialized then h else heap_init) = h := by
      rw [hflag]
      rfl
    rcases List.mem_iff_getElem?.mp hb with ⟨j, hj⟩
    have hoffmem := hInv.bins_complete j b hj hbfree
    have ha0 : align8 0 = 0 := by decide
    cases hff : find_fit h (align8 0) with
    | none =>
      exfalso
      rw [find_fit, ha0] at hff
      have hs0 : size_to_bin 0 = 0 := by decide
      rw [hs0, List.drop_zero] at hff
      have hempty2 := findFitFrom_zero_none h _ hff (size_to_bin b.size)
        (List.mem_range.mpr (size_to_bin_lt _))
      rw [hempty2] at hoffmem
      cases hoffmem
    | some off =>
      rcases find_fit_block h hInv (align8 0) off hff with ⟨j2, b2, hj2, hoff2, _, _⟩
      have hidx : idxAt h.blocks off = some j2 :=
        hoff2 ▸ idxAt_offsetAt _ j2 (List.getElem?_eq_some.mp hj2).1
      refine ⟨off + sizeofBlock, my_malloc_fst h 0 off j2 ?_ ?_⟩
      · rw [hIf]; exact hff
      · rw [hIf]; exact hidx

theorem claim_C9_witness :
    ((⟨initSize, true⟩ : Block) ∈ heap_init.blocks ∧
      (⟨initSize, true⟩ : Block).free = true) ∧
    ∃ p, (my_malloc heap_init 0).1 = some p :=
  ⟨⟨by decide, rfl⟩,
    claim_C9 heap_init reachable_heap_init ⟨initSize, true⟩ (by decide) rfl⟩

/-- C3: round trip — starting from the freshly initialized arena, a
successful `my_malloc x` immediately followed by `my_free` of the returned
pointer restores a chain with exactly one block, free and spanning the
initial capacity. -/
theorem claim_C3 (x p : ℕ) (hp : (my_malloc heap_init x).1 = some p) :
    ((my_free (my_malloc heap_init x).2 (some p)).2).blocks = [⟨initSize, true⟩] := by
  rcases my_malloc_some_elim heap_init inv_heap_init x p hp with
    ⟨l₁, b, l₂, hblocks, hfree, hsz, hpe, hff⟩
  have hIf : (if heap_init.heap_initialized then heap_init else heap_init) = heap_init :=
    ite_self _
  have hone : ([(⟨initSize, true⟩ : Block)] : List Block) = l₁ ++ b :: l₂ := by
    rw [← heap_init_blocks, ← hIf]
    exact hblocks
  cases l₁ with
  | cons a t =>
    exfalso
    have hlen := congrArg List.length hone
    simp only [List.length_cons, List.length_append, List.length_nil] at hlen
    omega
  | nil =>
    rw [List.nil_append] at hone
    injection hone with hb hl₂
    subst hb
    subst hl₂
    have hsz' : align8 x ≤ initSize := hsz
    have hpH : p < HEAP_SIZE := by
      rw [hpe]
      decide
    by_cases hsmall : sub64 initSize (align8 x) < sizeofBlock + sizeofFooter + ALIGN
    · have hmal := my_malloc_eq_nosplit heap_init x [] [] ⟨initSize, true⟩ hff hblocks hsmall
      have hblocks2 : (my_malloc heap_init x).2.blocks =
          [] ++ Block.mk initSize false :: [] := by
        rw [hmal]
      have hfe := my_free_ok_eq (my_malloc heap_init x).2 p [] []
        (Block.mk initSize false) hblocks2 rfl hpe hpH
      have hst2 := congrArg Prod.snd hfe
      rw [hst2]
      rw [coalesce_eq_nomerge _ [] [] (Block.mk (Block.mk initSize false).size true)
        rfl (by simp) (by simp)]
      rw [insert_free_blocks]
      rfl
    · have hmal := my_malloc_eq_split heap_init x [] [] ⟨initSize, true⟩ hff hblocks hsmall
      have hsub64 : sub64 initSize (align8 x) = initSize - align8 x :=
        sub64_eq _ _ hsz' (by decide)
      have h64 : 64 ≤ initSize - align8 x := by
        have h1 := Nat.le_of_not_lt hsmall
        rw [hsub64] at h1
        simpa [sizeofBlock, sizeofFooter, ALIGN] using h1
      have hblocks2 : (my_malloc heap_init x).2.blocks =
          [] ++ Block.mk (align8 x) false ::
            [Block.mk (sub64 initSize (align8 x) - sizeofBlock - sizeofFooter) true] := by
        rw [hmal]
      have hfe := my_free_ok_eq (my_malloc heap_init x).2 p []
        [Block.mk (sub64 initSize (align8 x) - sizeofBlock - sizeofFooter) true]
        (Block.mk (align8 x) false) hblocks2 rfl hpe hpH
      have hst2 := congrArg Prod.snd hfe
      rw [hst2]
      rw [coalesce_eq_fwd _ [] [] (Block.mk (Block.mk (align8 x) false).size true)
        (Block.mk (sub64 initSize (align8 x) - sizeofBlock - sizeofFooter) true)
        rfl rfl (by simp)]
      rw [insert_free_blocks]
      have hval : align8 x + sizeofBlock + sizeofFooter +
          (sub64 initSize (align8 x) - sizeofBlock - sizeofFooter) = initSize := by
        rw [hsub64]
        simp only [sizeofBlock, sizeofFooter]
        omega
      show [Block.mk (align8 x + sizeofBlock + sizeofFooter +
        (sub64 initSize (align8 x) - sizeofBlock - sizeofFooter)) true] =
        [(⟨initSize, true⟩ : Block)]
      rw [hval]

theorem claim_C3_witness :
    (my_malloc heap_init 16).1 = some 48 ∧
    ((my_free (my_malloc heap_init 16).2 (some 48)).2).blocks = [⟨initSize, true⟩] :=
  ⟨by decide, claim_C3 16 48 (by decide)⟩

theorem my_free_ok_elim (h : Heap) (p : ℕ)
    (hok : (my_free h (some p)).1 = FreeEvent.ok) :
    ∃ l₁ l₂ b, h.blocks = l₁ ++ b :: l₂ ∧ b.free = false ∧
      p = chainLen l₁ + sizeofBlock ∧ p < HEAP_SIZE := by
  rw [my_free] at hok
  by_cases hge : HEAP_SIZE ≤ p
  · rw [if_pos hge] at hok
    simp at hok
  rw [if_neg hge] at hok
  by_cases hlt : p < sizeofBlock
  · rw [if_pos hlt] at hok
    simp at hok
  rw [if_neg hlt] at hok
  cases hidx : idxAt h.blocks (p - sizeofBlock) with
  | none =>
    simp only [hidx] at hok
    by_cases hst : (p - sizeofBlock) ∈ h.stale
    · rw [if_pos hst] at hok
      simp at hok
    · rw [if_neg hst] at hok
      simp at hok
  | some i =>
    simp only [hidx] at hok
    by_cases hbf : (blockAt h.blocks i).free = true
    · rw [if_pos hbf] at hok
      simp at hok
    · rcases (idxAt_some_iff _ _ _).mp hidx with ⟨hilen, hoff⟩
      cases hgb : h.blocks[i]? with
      | none =>
        rw [List.getElem?_eq_none_iff] at hgb
        omega
      | some b =>
        rcases decomp_of_getElem? _ i b hgb with ⟨l₁, l₂, hblocks, hlen⟩
        have hbab : blockAt h.blocks i = b := blockAt_of_getElem? _ _ _ hgb
        rw [hbab] at hbf
        simp only [Bool.not_eq_true] at hbf
        have hoffl : chainLen l₁ = p - sizeofBlock := by
          rw [← hoff, hblocks, ← hlen]
          exact (offsetAt_len l₁ _).symm
        have hple : sizeofBlock ≤ p := not_lt.mp hlt
        exact ⟨l₁, l₂, b, hblocks, hbf, by omega, by omega⟩

/-- C6: releasing the same pointer twice in a row from any reachable
state: whenever the first `my_free` succeeds, the second call reports
`doubleFree` and returns the state produced by the first call completely
unchanged. -/
theorem claim_C6 (h : Heap) (hr : Reachable h) (p : ℕ)
    (hok : (my_free h (some p)).1 = FreeEvent.ok) :
    my_free (my_free h (some p)).2 (some p) =
      (FreeEvent.doubleFree, (my_free h (some p)).2) := by
  rcases my_free_ok_elim h p hok with ⟨l₁, l₂, b, hblocks, hbfree, hpe, hpH⟩
  have hp48 : sizeofBlock ≤ p := by
    rw [hpe]
    omega
  have hfe := my_free_ok_eq h p l₁ l₂ b hblocks hbfree hpe hpH
  have hst : (my_free h (some p)).2 =
      coalesce { h with blocks := l₁ ++ Block.mk b.size true :: l₂ } l₁.length := by
    rw [hfe]
  rw [hst]
  have hNext : (∀ nb ∈ l₂.head?, nb.free = false) ∨
      ∃ n l₂', l₂ = n :: l₂' ∧ n.free = true := by
    cases l₂ with
    | nil =>
      left
      intro nb hnb
      cases hnb
    | cons n l₂' =>
      by_cases hn : n.free = true
      · exact Or.inr ⟨n, l₂', rfl, hn⟩
      · left
        intro nb hnb
        cases hnb
        simpa using hn
  have hPrev : (∀ pb ∈ l₁.getLast?, pb.free = false) ∨
      ∃ l₁' q', l₁ = l₁' ++ [q'] ∧ q'.free = true := by
    rcases List.eq_nil_or_concat l₁ with hnil | ⟨l₁', q', hcat⟩
    · left
      rw [hnil]
      intro pb hpb
      cases hpb
    · have hql : l₁ = l₁' ++ [q'] := by simpa [List.concat_eq_append] using hcat
      by_cases hq' : q'.free = true
      · exact Or.inr ⟨l₁', q', hql, hq'⟩
      · left
        rw [hql]
        intro pb hpb
        rw [List.getLast?_concat] at hpb
        cases hpb
        simpa using hq'
  rcases hNext with hnextF | ⟨n, l₂', hl₂, hnfree⟩
  · rcases hPrev with hprevF | ⟨l₁', q', hl₁, hq'free⟩
    · -- neither neighbor free: block stays at its offset, now marked free
      rw [coalesce_eq_nomerge _ l₁ l₂ (Block.mk b.size true) rfl hnextF hprevF]
      apply my_free_doubleFree_flag _ _ l₁.length hpH hp48
      · show idxAt (l₁ ++ Block.mk b.size true :: l₂) (p - sizeofBlock) = some l₁.length
        have hsub : p - sizeofBlock = chainLen l₁ := by
          rw [hpe]
          omega
        rw [hsub]
        exact (idxAt_some_iff _ _ _).mpr ⟨by simp, offsetAt_len l₁ _⟩
      · show (blockAt (l₁ ++ Block.mk b.size true :: l₂) l₁.length).free = true
        rw [blockAt_of_getElem? _ _ _ (getElem?_at_len l₁ l₂ _)]
    · -- backward merge: the freed header is absorbed and goes stale
      subst hl₁
      rw [show (l₁' ++ [q']).length = l₁'.length + 1 from by simp]
      rw [coalesce_eq_bwd _ l₁' l₂ q' (Block.mk b.size true) (by simp) hq'free hnextF]
      have hsub : p - sizeofBlock = chainLen l₁' + blockFootprint q' := by
        rw [hpe, chainLen_append, chainLen_singleton]
        omega
      apply my_free_doubleFree_stale _ _ hpH hp48
      · show idxAt (l₁' ++
          Block.mk (q'.size + sizeofBlock + sizeofFooter + b.size) q'.free :: l₂)
          (p - sizeofBlock) = none
        rw [hsub, idxAt_none_iff]
        intro j hj habs
        by_cases hjle : j ≤ l₁'.length
        · have h1 := offsetAt_le (l₁' ++
            Block.mk (q'.size + sizeofBlock + sizeofFooter + b.size) q'.free :: l₂)
            j l₁'.length hjle
          rw [offsetAt_len] at h1
          have h2 := blockFootprint_ge q'
          omega
        · obtain ⟨k, hk⟩ : ∃ k, j = l₁'.length + 1 + k := ⟨j - l₁'.length - 1, by omega⟩
          subst hk
          rw [offsetAt_one_mid_past] at habs
          rw [blockFootprint_eq, blockFootprint_eq] at habs
          simp only [sizeofBlock, sizeofFooter] at habs
          omega
      · show (p - sizeofBlock) ∈ (chainLen l₁' + blockFootprint q') :: h.stale
        rw [hsub]
        exact List.mem_cons_self _ _
  · rcases hPrev with hprevF | ⟨l₁', q', hl₁, hq'free⟩
    · -- forward merge: the block of record keeps the freed offset, free
      subst hl₂
      rw [coalesce_eq_fwd _ l₁ l₂' (Block.mk b.size true) n rfl hnfree hprevF]
      apply my_free_doubleFree_flag _ _ l₁.length hpH hp48
      · show idxAt (l₁ ++
          Block.mk (b.size + sizeofBlock + sizeofFooter + n.size) true :: l₂')
          (p - sizeofBlock) = some l₁.length
        have hsub : p - sizeofBlock = chainLen l₁ := by
          rw [hpe]
          omega
        rw [hsub]
        exact (idxAt_some_iff _ _ _).mpr ⟨by simp, offsetAt_len l₁ _⟩
      · show (blockAt (l₁ ++
          Block.mk (b.size + sizeofBlock + sizeofFooter + n.size) true :: l₂')
          l₁.length).free = true
        rw [blockAt_of_getElem? _ _ _ (getElem?_at_len l₁ l₂' _)]
    · -- both neighbors merge: the freed header goes stale inside the merge
      subst hl₂
      subst hl₁
      rw [show (l₁' ++ [q']).length = l₁'.length + 1 from by simp]
      rw [coalesce_eq_both _ l₁' l₂' q' (Block.mk b.size true) n (by simp) hq'free hnfree]
      have hsub : p - sizeofBlock = chainLen l₁' + blockFootprint q' := by
        rw [hpe, chainLen_append, chainLen_singleton]
        omega
      apply my_free_doubleFree_stale _ _ hpH hp48
      · show idxAt (l₁' ++ Block.mk (q'.size + sizeofBlock + sizeofFooter +
          (b.size + sizeofBlock + sizeofFooter + n.size)) q'.free :: l₂')
          (p - sizeofBlock) = none
        rw [hsub, idxAt_none_iff]
        intro j hj habs
        by_cases hjle : j ≤ l₁'.length
        · have h1 := offsetAt_le (l₁' ++ Block.mk (q'.size + sizeofBlock + sizeofFooter +
            (b.size + sizeofBlock + sizeofFooter + n.size)) q'.free :: l₂')
            j l₁'.length hjle
          rw [offsetAt_len] at h1
          have h2 := blockFootprint_ge q'
          omega
        · obtain ⟨k, hk⟩ : ∃ k, j = l₁'.length + 1 + k := ⟨j - l₁'.length - 1, by omega⟩
          subst hk
          rw [offsetAt_one_mid_past] at habs
          rw [blockFootprint_eq, blockFootprint_eq] at habs
          simp only [sizeofBlock, sizeofFooter] at habs
          omega
      · show (p - sizeofBlock) ∈ (chainLen l₁' + blockFootprint q') ::
          (chainLen l₁' + blockFootprint q' + blockFootprint (Block.mk b.size true)) ::
          h.stale
        rw [hsub]
        exact List.mem_cons_self _ _

theorem claim_C6_witness :
    (my_free (my_malloc heap_init 16).2 (some 48)).1 = FreeEvent.ok ∧
    my_free (my_free (my_malloc heap_init 16).2 (some 48)).2 (some 48) =
      (FreeEvent.doubleFree, (my_free (my_malloc heap_init 16).2 (some 48)).2) :=
  ⟨by decide, claim_C6 (my_malloc heap_init 16).2
    (Relation.ReflTransGen.tail reachable_heap_init (Step.malloc heap_init 16))
    48 (by decide)⟩

end Mymalloc
